import Mathlib

/-!
Verification of the Kolkata Metro route-planning core against its design
specification.  The development embeds the two components of
`backend/PathFinder/PathShower.py`:

* `build_graph_and_station_lines` — turns an ordered list of
  (line name, ordered station sequence) pairs into an undirected labelled
  multigraph (adjacency assoc-lists mirroring Python insertion-ordered
  dicts) and a station → set-of-lines index;
* `find_min_switch_path` — the Dijkstra-like search over (station, line)
  states minimising the lexicographic pair (switches, stations).

Python dicts are modelled as insertion-ordered association lists with
unique keys; Python sets (of line names) as insertion-ordered duplicate-free
lists; the `heapq` frontier as a list kept sorted by the tuple order that
Python compares heap entries with; `defaultdict` auto-insertion is modelled
by threading the (possibly grown) dictionaries through the computation.
The search loop takes explicit fuel and returns `none` when the fuel runs
out, so every theorem about a completed run is stated on a `some` result.
-/

namespace Metro

abbrev Station := String
abbrev Line := String
abbrev Labels := List Line
abbrev Adj := List (Station × Labels)
abbrev Graph := List (Station × Adj)
abbrev SL := List (Station × Labels)

/-- Association-list lookup, mirroring Python dict `d[k]` / `d.get(k)`. -/
def alook {α : Type} : List (String × α) → String → Option α
  | [], _ => none
  | (k2, v) :: rest, k => if k2 = k then some v else alook rest k

/-- Association-list update mirroring Python dict assignment `d[k] = v`:
existing keys are updated in place, new keys are appended at the end
(Python dicts preserve insertion order). -/
def aset {α : Type} : List (String × α) → String → α → List (String × α)
  | [], k, v => [(k, v)]
  | (k2, w) :: rest, k, v =>
    if k2 = k then (k2, v) :: rest else (k2, w) :: aset rest k v

/-- Python `set.add` on a set modelled as an insertion-ordered
duplicate-free list. -/
def sadd (l : List String) (x : String) : List String :=
  if x ∈ l then l else l ++ [x]

/-- One `station_lines[s].add(line_name)` step of the builder
(`station_lines` is a `defaultdict(set)`). -/
def slAdd (sl : SL) (s : Station) (name : Line) : SL :=
  aset sl s (sadd ((alook sl s).getD []) name)

/-- One `id_to_names[s][s] += 1` step of the builder
(`id_to_names` is a `defaultdict(Counter)`). -/
def i2nAdd (m : List (Station × List (Station × Nat))) (s : Station) :
    List (Station × List (Station × Nat)) :=
  let c := (alook m s).getD []
  aset m s (aset c s ((alook c s).getD 0 + 1))

/-- One `graph[a][b].add(name)` step of the builder (`graph` is a
`defaultdict(lambda: defaultdict(set))`; a missing outer or inner key is
created on access, appended at the end of the dict). -/
def gAdd (g : Graph) (a b : Station) (name : Line) : Graph :=
  let adj := (alook g a).getD []
  aset g a (aset adj b (sadd ((alook adj b).getD []) name))

/-- The consecutive pairs `(stations[i], stations[i+1])` of a line. -/
def adjPairs : List Station → List (Station × Station)
  | a :: b :: rest => (a, b) :: adjPairs (b :: rest)
  | _ => []

abbrev I2N := List (Station × List (Station × Nat))

/-- Both directed copies of one consecutive edge get the line's label:
`graph[a][b].add(line_name); graph[b][a].add(line_name)`. -/
def gAddPair (n : Line) (gg : Graph) (p : Station × Station) : Graph :=
  gAdd (gAdd gg p.1 p.2 n) p.2 p.1 n

/-- Processing of one `(line_name, line_dict)` item of the builder's outer
loop: membership updates for every station of the line, then the edge loop
over consecutive pairs. -/
def buildStep (acc : Graph × SL × I2N) (item : Line × List Station) :
    Graph × SL × I2N :=
  let i2n2 := item.2.foldl (fun m s => i2nAdd m s) acc.2.2
  let sl2 := item.2.foldl (fun m s => slAdd m s item.1) acc.2.1
  let g2 := (adjPairs item.2).foldl (gAddPair item.1) acc.1
  (g2, sl2, i2n2)

/-- Embedding of `build_graph_and_station_lines` from
`backend/PathFinder/PathShower.py`: for each line, record every station's
membership in `id_to_names` and `station_lines`, then label both directed
copies of each consecutive edge with the line name.  Returns
(graph, station_lines, canonical_to_display, id_to_names). -/
def build_graph_and_station_lines (items : List (Line × List Station)) :
    Graph × SL × List (Station × Station) × I2N :=
  let r := items.foldl buildStep ([], [], [])
  (r.1, r.2.1, r.2.2.map (fun p => (p.1, p.1)), r.2.2)

/-- Two-level graph lookup `graph[a][b]` (read-only; `none` when either key
is absent). -/
def alook2 (g : Graph) (a b : Station) : Option Labels :=
  match alook g a with
  | none => none
  | some adj => alook adj b

/-- A frontier entry: the Python heap tuples
`(switches, stations_count, station, line, parent)` where `parent` is
either `None` (an initial entry for the source) or the full tuple of the
state this entry was expanded from. -/
inductive Entry : Type where
  | root (sw st : Nat) (stn : Station) (lin : Line)
  | node (sw st : Nat) (stn : Station) (lin : Line) (par : Entry)
deriving DecidableEq

def Entry.sw : Entry → Nat
  | .root s _ _ _ => s
  | .node s _ _ _ _ => s

def Entry.st : Entry → Nat
  | .root _ n _ _ => n
  | .node _ n _ _ _ => n

def Entry.stn : Entry → Station
  | .root _ _ s _ => s
  | .node _ _ s _ _ => s

def Entry.lin : Entry → Line
  | .root _ _ _ l => l
  | .node _ _ _ l _ => l

/-- Lexicographic strict comparison of Python `(switches, stations)`
cost pairs. -/
def pairLtB (a b : Nat × Nat) : Bool :=
  Nat.blt a.1 b.1 || (a.1 == b.1 && Nat.blt a.2 b.2)

/-- Python string comparison `s < t`: lexicographic on code points, a
proper prefix being smaller. -/
def strLtAux : List Char → List Char → Bool
  | [], [] => false
  | [], _ :: _ => true
  | _ :: _, [] => false
  | a :: as, b :: bs =>
    if a.val < b.val then true else if b.val < a.val then false else strLtAux as bs

def strLtB (s t : Station) : Bool := strLtAux s.data t.data

def strLeB (s t : Station) : Bool := !strLtB t s

/-- Python `min` of two strings (keeps the first argument on ties, as
`min` over an iterable keeps the earliest minimum). -/
def strMin (a b : String) : String := if strLtB b a then b else a

/-- The `≤` part of the tuple order `heapq` uses on frontier entries:
lexicographic on (switches, stations_count, station, line).  Distinct live
entries never tie on this prefix, so the parent component never has to be
compared. -/
def entryLe (e1 e2 : Entry) : Bool :=
  Nat.blt e1.sw e2.sw ||
    (e1.sw == e2.sw &&
      (Nat.blt e1.st e2.st ||
        (e1.st == e2.st &&
          (strLtB e1.stn e2.stn ||
            (e1.stn == e2.stn && strLeB e1.lin e2.lin)))))

/-- Push onto the frontier: insertion into the list kept sorted by
`entryLe`, so that popping the head is popping the `heapq` minimum. -/
def pqInsert (e : Entry) : List Entry → List Entry
  | [] => [e]
  | x :: xs => if entryLe e x then e :: x :: xs else x :: pqInsert e xs

/-- The `visited` dictionary: best known (switches, stations) per
(station, line) state. -/
abbrev Visited := Station × Line → Option (Nat × Nat)

def vset (v : Visited) (k : Station × Line) (c : Nat × Nat) : Visited :=
  fun k2 => if k2 = k then some c else v k2

/-- The stale-state check
`visited.get((curr, curr_line), (inf, inf)) < (switches, stations_count)`. -/
def staleB (v : Visited) (e : Entry) : Bool :=
  match v (e.stn, e.lin) with
  | none => false
  | some c => pairLtB c (e.sw, e.st)

/-- Python `min` over a set of line names (raises, i.e. returns `none`,
on an empty set). -/
def pymin : Labels → Option Line
  | [] => none
  | x :: xs => some (xs.foldl strMin x)

/-- `graph[curr]` on the `defaultdict` graph: a missing station is inserted
with an empty adjacency dict (appended at the end) — the one mutation
`find_min_switch_path` can perform on its inputs. -/
def graphGetD (g : Graph) (s : Station) : Adj × Graph :=
  match alook g s with
  | some adj => (adj, g)
  | none => ([], g ++ [(s, [])])

/-- The candidate cost
`(switches + (edge_line != curr_line), stations_count + 1)`. -/
def relaxCost (e : Entry) (el : Line) : Nat × Nat :=
  (e.sw + (if el = e.lin then 0 else 1), e.st + 1)

/-- Relaxation of one neighbour: choose the edge line (stay on the current
line when possible, otherwise the minimum label — `none` models the
`ValueError` of `min` on an empty label set), then update `visited` and the
frontier when the candidate cost improves on the best known one. -/
def relax (e : Entry) (acc : List Entry × Visited) (nb : Station × Labels) :
    Option (List Entry × Visited) :=
  match (if e.lin ∈ nb.2 then some e.lin else pymin nb.2) with
  | none => none
  | some el =>
    if (match acc.2 (nb.1, el) with
        | none => true
        | some best => pairLtB (relaxCost e el) best) = true then
      some (pqInsert (Entry.node (relaxCost e el).1 (relaxCost e el).2 nb.1 el e) acc.1,
            vset acc.2 (nb.1, el) (relaxCost e el))
    else some acc

/-- The `for nbr, lines_between in graph[curr].items()` loop. -/
def expand (e : Entry) : Adj → List Entry × Visited → Option (List Entry × Visited)
  | [], acc => some acc
  | nb :: rest, acc =>
    match relax e acc nb with
    | none => none
    | some acc2 => expand e rest acc2

/-- Outcome of the search loop: destination popped, frontier exhausted, or
a `ValueError` raised by `min` on an empty label set.  Each carries the
final (possibly grown) graph. -/
inductive Out : Type where
  | found (e : Entry) (g : Graph)
  | nopath (g : Graph)
  | crash (g : Graph)
deriving DecidableEq

/-- The `while pq:` loop of `find_min_switch_path`, with explicit fuel
(`none` = fuel exhausted; the Python loop always terminates, so any
completed run is reported as `some`). -/
def findLoop (dest : Station) : Nat → List Entry → Visited → Graph → Option Out
  | 0, _, _, _ => none
  | _ + 1, [], _, g => some (Out.nopath g)
  | fuel + 1, e :: pq, v, g =>
    if staleB v e then findLoop dest fuel pq v g
    else if e.stn = dest then some (Out.found e g)
    else
      match expand e (graphGetD g e.stn).1 (pq, v) with
      | none => some (Out.crash (graphGetD g e.stn).2)
      | some pv => findLoop dest fuel pv.1 pv.2 (graphGetD g e.stn).2

/-- `rev_stations`: the station of the terminal entry followed by the
stations of its parent chain. -/
def revStations : Entry → List Station
  | .root _ _ s _ => [s]
  | .node _ _ s _ p => s :: revStations p

/-- `rev_lines`: the line arrived on at each station of the chain. -/
def revLines : Entry → List Line
  | .root _ _ _ l => [l]
  | .node _ _ _ l p => l :: revLines p

/-- Path reconstruction: reverse the parent chain; the line used on edge
`i → i+1` is the line of the state arrived into, i.e. `rev_lines[i+1]`. -/
def reconstruct (e : Entry) : List Station × Nat × Nat × List Line :=
  ((revStations e).reverse, e.sw, e.st, ((revLines e).reverse).tail)

/-- The value `find_min_switch_path` produces for its caller: the returned
quadruple (`none` standing for `(None, None, None, None)`) or a propagated
exception, together with the post-call graph and station-lines dicts
(aliased by the caller, hence observable). -/
inductive PyResult : Type where
  | ret (r : Option (List Station × Nat × Nat × List Line)) (g : Graph) (sl : SL)
  | exn (g : Graph) (sl : SL)
deriving DecidableEq

/-- `station_lines[src]` on the `defaultdict` station-lines index (the
guard on line 83 ensures the key is present, so no insertion happens on
this access in any run, but the model keeps the defaultdict semantics). -/
def slGetD (sl : SL) (s : Station) : Labels × SL :=
  match alook sl s with
  | some ls => (ls, sl)
  | none => ([], sl ++ [(s, [])])

/-- The seeding loop `for line in station_lines[src]: heappush(...);
visited[(src, line)] = (0, 1)`: note the heap entries carry stations
count 0 while `visited` records 1. -/
def seedPQ (src : Station) (ls : Labels) : List Entry × Visited :=
  ls.foldl
    (fun acc l => (pqInsert (Entry.root 0 0 src l) acc.1, vset acc.2 (src, l) (0, 1)))
    (([] : List Entry), (fun _ => none : Visited))

/-- Translation of the loop outcome into the caller-visible result. -/
def wrapOut (sl2 : SL) : Option Out → Option PyResult
  | none => none
  | some (Out.found e g2) => some (PyResult.ret (some (reconstruct e)) g2 sl2)
  | some (Out.nopath g2) => some (PyResult.ret none g2 sl2)
  | some (Out.crash g2) => some (PyResult.exn g2 sl2)

/-- Embedding of `find_min_switch_path` from
`backend/PathFinder/PathShower.py`: guard on unknown stations, seed one
frontier entry per line serving the source (heap cost `(0, 0)`, `visited`
entry `(0, 1)`), run the loop, and reconstruct the path from the found
entry. -/
def find_min_switch_path (g : Graph) (sl : SL) (src dest : Station) (fuel : Nat) :
    Option PyResult :=
  if (alook sl src).isNone || (alook sl dest).isNone then
    some (PyResult.ret none g sl)
  else
    wrapOut (slGetD sl src).2
      (findLoop dest fuel (seedPQ src (slGetD sl src).1).1
        (seedPQ src (slGetD sl src).1).2 g)

/-! ## Valid walks

A valid path in the sense of the specification: a station sequence with one
line per edge, each consecutive pair being an edge of the graph and the
chosen line a member of that edge's label set. -/

/-- `edgeOkB g a b l`: the graph has the edge `a → b` and `l` is one of its
labels. -/
def edgeOkB (g : Graph) (a b : Station) (l : Line) : Bool :=
  match alook2 g a b with
  | none => false
  | some lab => decide (l ∈ lab)

/-- `chainB g sts els`: `els` assigns one valid line to each consecutive
edge of the station sequence `sts` (and the lengths agree). -/
def chainB (g : Graph) : List Station → List Line → Bool
  | [_], [] => true
  | a :: b :: rest, l :: ls => edgeOkB g a b l && chainB g (b :: rest) ls
  | _, _ => false

/-- The number of line switches along a per-edge line assignment: the
number of adjacent unequal pairs. -/
def pathSwitches : List Line → Nat
  | a :: b :: rest => (if a = b then 0 else 1) + pathSwitches (b :: rest)
  | _ => 0

/-! ## Concrete test networks

`netA`: three lines A: X–Y, B: X–Y–Z, C: S–X.  The edge X–Y is shared by
lines A and B; only line B continues to Z.
`netB`: a single-station line L1: X plus a disjoint line L2: A–B.
`netC`: two disconnected islands L1: A–B and L2: C–D. -/

def netA : List (Line × List Station) :=
  [("A", ["X", "Y"]), ("B", ["X", "Y", "Z"]), ("C", ["S", "X"])]

def gA : Graph := (build_graph_and_station_lines netA).1

def slA : SL := (build_graph_and_station_lines netA).2.1

def netB : List (Line × List Station) :=
  [("L1", ["X"]), ("L2", ["A", "B"])]

def gB : Graph := (build_graph_and_station_lines netB).1

def slB : SL := (build_graph_and_station_lines netB).2.1

def netC : List (Line × List Station) :=
  [("L1", ["A", "B"]), ("L2", ["C", "D"])]

def gC : Graph := (build_graph_and_station_lines netC).1

def slC : SL := (build_graph_and_station_lines netC).2.1

/-- Claim C1 (code bug): on `netA` the query S → Z returns the path
S → X → Y → Z with 2 switches (edge lines C, A, B: the search greedily
switches to the alphabetically smallest line A on the shared edge X–Y and
must then switch again to B), although the same station sequence ridden
with edge lines C, B, B is a valid path with only 1 switch.  The returned
(switches, stations) pair is therefore not lexicographically minimal,
contradicting the function's own name and docstring
("Dijkstra-like search minimizing (switches, stations)"). -/
theorem c1_greedy_not_optimal :
    find_min_switch_path gA slA "S" "Z" 20 =
      some (PyResult.ret (some (["S", "X", "Y", "Z"], 2, 3, ["C", "A", "B"])) gA slA) ∧
    chainB gA ["S", "X", "Y", "Z"] ["C", "B", "B"] = true ∧
    pathSwitches ["C", "B", "B"] < 2 := by
  refine ⟨by decide, by decide, by decide⟩

/-- Claim C2 (code bug): the reflexive query X → X on `netA` returns the
single-station path with 0 switches but a station count of 0, not 1: the
heap is seeded with `stations_count = 0` although the `visited` table
records `(0, 1)` for the very same seed states and the CLI prints the
returned count as "Stations traversed (including source)". -/
theorem c2_reflexive_count_zero :
    find_min_switch_path gA slA "X" "X" 20 =
      some (PyResult.ret (some (["X"], 0, 0, [])) gA slA) := by
  decide

/-- Claim C3 (amended): when the source or the destination is not a key of
the station-lines index, `find_min_switch_path` returns the quadruple
`(None, None, None, None)` immediately, with both input dictionaries
unchanged — the very same return value that signals "no path", so the two
outcomes are not distinguishable from the function's result. -/
theorem c3_unknown_returns_none (g : Graph) (sl : SL) (src dest : Station)
    (fuel : Nat) (h : alook sl src = none ∨ alook sl dest = none) :
    find_min_switch_path g sl src dest fuel = some (PyResult.ret none g sl) := by
  unfold find_min_switch_path
  have hb : ((alook sl src).isNone || (alook sl dest).isNone) = true := by
    rcases h with h | h <;> simp [h]
  simp [hb]

/-- Witness for `c3_unknown_returns_none` on the two-island network: the
station Z is absent from the index. -/
theorem c3_unknown_returns_none_witness :
    find_min_switch_path gC slC "A" "Z" 20 = some (PyResult.ret none gC slC) :=
  c3_unknown_returns_none gC slC "A" "Z" 20 (Or.inr (by decide))

/-- Claim C3 (counterexample): on the two-island network `netC`, the query
A → Z (Z unknown to the index) and the query A → C (both stations known,
but on disconnected islands) produce exactly the same result — the
`(None, None, None, None)` quadruple with untouched inputs — so the
UnknownStation outcome is not distinguishable from the NotFound outcome. -/
theorem c3_outcomes_identical :
    alook slC "Z" = none ∧
    (alook slC "A").isSome = true ∧
    (alook slC "C").isSome = true ∧
    find_min_switch_path gC slC "A" "Z" 20 = find_min_switch_path gC slC "A" "C" 20 := by
  refine ⟨by decide, by decide, by decide, by decide⟩

/-- Claim C5 (counterexample): the builder does not reject a line whose
station sequence repeats a station.  On the single line L1: A–B–A it
returns a graph, a station-lines index, a display map and a name counter
(which even records the duplicate: A was seen twice) — no
MalformedLineDefinition error exists anywhere in the code. -/
theorem c5_duplicates_not_rejected :
    build_graph_and_station_lines [("L1", ["A", "B", "A"])] =
      ([("A", [("B", ["L1"])]), ("B", [("A", ["L1"])])],
       [("A", ["L1"]), ("B", ["L1"])],
       [("A", "A"), ("B", "B")],
       [("A", [("A", 2)]), ("B", [("B", 1)])]) := by
  rfl

/-- Claim C8 (counterexample): `find_min_switch_path` is not free of side
effects on its inputs.  On `netB` the station X lies on a single-station
line, so it is a key of the station-lines index but not of the graph;
querying X → A pops X and evaluates `graph[curr]`, and the `defaultdict`
inserts the new key X with an empty adjacency dict — the graph's key set
has changed after the call. -/
theorem c8_defaultdict_mutates_graph :
    find_min_switch_path gB slB "X" "A" 20 =
      some (PyResult.ret none (gB ++ [("X", [])]) slB) ∧
    alook gB "X" = none ∧
    alook (gB ++ [("X", [])]) "X" = some [] := by
  refine ⟨by decide, by decide, by decide⟩

/-! ## Builder invariants: symmetry (C6) -/

theorem alook_aset {α : Type} (l : List (String × α)) (k k2 : String) (v : α) :
    alook (aset l k v) k2 = if k = k2 then some v else alook l k2 := by
  induction l with
  | nil => simp [aset, alook]
  | cons p rest ih =>
    obtain ⟨k3, w⟩ := p
    by_cases h3 : k3 = k
    · subst h3
      by_cases h2 : k3 = k2 <;> simp [aset, alook, h2]
    · by_cases h2 : k3 = k2
      · subst h2
        have hk : ¬ k = k3 := fun hk => h3 hk.symm
        simp [aset, alook, h3, hk]
      · simp [aset, alook, h3, h2, ih]

theorem alook2_gAdd (g : Graph) (a b x y : Station) (n : Line) :
    alook2 (gAdd g a b n) x y =
      if a = x ∧ b = y then some (sadd ((alook2 g a b).getD []) n)
      else alook2 g x y := by
  by_cases hx : a = x
  · subst hx
    by_cases hy : b = y
    · subst hy
      cases halook : alook g a with
      | none => simp [gAdd, alook2, alook_aset, halook, alook]
      | some adj => simp [gAdd, alook2, alook_aset, halook]
    · cases halook : alook g a with
      | none => simp [gAdd, alook2, alook_aset, halook, alook, hy]
      | some adj => simp [gAdd, alook2, alook_aset, halook, hy]
  · have hcond : ¬ (a = x ∧ b = y) := fun hc => hx hc.1
    simp [gAdd, alook2, alook_aset, hx, hcond]

/-- Graph symmetry: the entry `graph[a][b]` (including its absence) always
equals `graph[b][a]`. -/
def Sym (g : Graph) : Prop := ∀ a b, alook2 g a b = alook2 g b a

theorem sym_gAddPair {g : Graph} (h : Sym g) (n : Line) (p : Station × Station) :
    Sym (gAddPair n g p) := by
  obtain ⟨a, b⟩ := p
  intro x y
  simp only [gAddPair, alook2_gAdd]
  by_cases hP1 : b = x ∧ a = y
  · obtain ⟨hbx, hay⟩ := hP1
    subst hbx
    subst hay
    by_cases hP2 : a = b ∧ b = a
    · obtain ⟨hab, -⟩ := hP2
      subst hab
      simp
    · have hab : ¬ a = b := fun hc => hP2 ⟨hc, hc.symm⟩
      have hba : ¬ b = a := fun hc => hab hc.symm
      simp [hab, hba, h a b]
  · by_cases hP2 : a = x ∧ b = y
    · obtain ⟨hax, hby⟩ := hP2
      subst hax
      subst hby
      have hba : ¬ b = a := fun hc => hP1 ⟨hc, hc.symm⟩
      have hab : ¬ a = b := fun hc => hba hc.symm
      simp [hab, hba, h a b]
    · have hP1s : ¬ (b = y ∧ a = x) := fun hc => hP2 ⟨hc.2, hc.1⟩
      have hP2s : ¬ (a = y ∧ b = x) := fun hc => hP1 ⟨hc.2, hc.1⟩
      simp [hP1, hP2, hP1s, hP2s, h x y]

theorem sym_foldl_gAddPair {g : Graph} (h : Sym g) (n : Line)
    (l : List (Station × Station)) : Sym (l.foldl (gAddPair n) g) := by
  induction l generalizing g with
  | nil => exact h
  | cons p rest ih => exact ih (sym_gAddPair h n p)

theorem sym_buildStep {acc : Graph × SL × I2N} (h : Sym acc.1)
    (item : Line × List Station) : Sym (buildStep acc item).1 :=
  sym_foldl_gAddPair h item.1 (adjPairs item.2)

theorem sym_foldl_buildStep {acc : Graph × SL × I2N} (h : Sym acc.1)
    (items : List (Line × List Station)) :
    Sym ((items.foldl buildStep acc).1) := by
  induction items generalizing acc with
  | nil => exact h
  | cons item rest ih => exact ih (sym_buildStep h item)

/-- Claim C6: every graph produced by the builder is symmetric — for all
stations `a` and `b`, the entry `graph[a][b]` equals the entry
`graph[b][a]`, including the label set (and including absence: `a` has `b`
as a neighbour iff `b` has `a`). -/
theorem c6_graph_symmetric (items : List (Line × List Station)) (a b : Station) :
    alook2 (build_graph_and_station_lines items).1 a b =
      alook2 (build_graph_and_station_lines items).1 b a := by
  have hnil : Sym ([] : Graph) := fun _ _ => rfl
  exact (sym_foldl_buildStep hnil items) a b

/-! ## Builder invariants: the station-lines index (C7, amended C5) -/

theorem mem_sadd (l : List String) (x y : String) :
    y ∈ sadd l x ↔ y ∈ l ∨ y = x := by
  unfold sadd
  by_cases hx : x ∈ l
  · simp only [if_pos hx]
    constructor
    · exact fun h => Or.inl h
    · rintro (h | rfl)
      · exact h
      · exact hx
  · simp [if_neg hx]

theorem sadd_idem (l : List String) (x : String) :
    sadd (sadd l x) x = sadd l x := by
  have hx : x ∈ sadd l x := (mem_sadd l x x).mpr (Or.inr rfl)
  rw [sadd, if_pos hx]

/-- The station-lines component of one builder item:
`for s in stations: station_lines[s].add(line_name)`. -/
def slStep (m : SL) (item : Line × List Station) : SL :=
  item.2.foldl (fun m2 t => slAdd m2 t item.1) m

/-- The graph component of one builder item: the loop over consecutive
pairs. -/
def gStep (g : Graph) (item : Line × List Station) : Graph :=
  (adjPairs item.2).foldl (gAddPair item.1) g

theorem buildStep_sl_proj (items : List (Line × List Station))
    (acc : Graph × SL × I2N) :
    (items.foldl buildStep acc).2.1 = items.foldl slStep acc.2.1 := by
  induction items generalizing acc with
  | nil => rfl
  | cons item rest ih => exact ih (buildStep acc item)

theorem buildStep_g_proj (items : List (Line × List Station))
    (acc : Graph × SL × I2N) :
    (items.foldl buildStep acc).1 = items.foldl gStep acc.1 := by
  induction items generalizing acc with
  | nil => rfl
  | cons item rest ih => exact ih (buildStep acc item)

/-- Closed form of the inner station loop: a station of the line gets the
line's name added (once) to its entry; other stations are untouched. -/
theorem alook_slFold (n : Line) (done : List Station) (sl : SL) (s : Station) :
    alook (done.foldl (fun m t => slAdd m t n) sl) s =
      if s ∈ done then some (sadd ((alook sl s).getD []) n) else alook sl s := by
  induction done generalizing sl with
  | nil => simp
  | cons t rest ih =>
    simp only [List.foldl_cons]
    rw [ih (slAdd sl t n)]
    by_cases ht : t = s
    · subst ht
      rw [show alook (slAdd sl t n) t = some (sadd ((alook sl t).getD []) n) by
        unfold slAdd
        rw [alook_aset]
        simp]
      by_cases hr : t ∈ rest <;>
        simp [hr, sadd_idem]
    · rw [show alook (slAdd sl t n) s = alook sl s by
        unfold slAdd
        rw [alook_aset]
        simp [ht]]
      have hts : ¬ s = t := fun h => ht h.symm
      by_cases hr : s ∈ rest <;> simp [hr, ht, hts]

/-- Key and membership characterisation of the station-lines fold:
a station has an entry iff it occurred before or occurs in a processed
line, and a line name belongs to the entry iff it was there before or one
of the processed lines both carries that name and contains the station. -/
theorem slStep_foldl_char (items : List (Line × List Station)) (m : SL)
    (s : Station) :
    ((alook (items.foldl slStep m) s).isSome ↔
      (alook m s).isSome ∨ ∃ pr ∈ items, s ∈ pr.2) ∧
    (∀ ls l, alook (items.foldl slStep m) s = some ls →
      (l ∈ ls ↔ (∃ ls0, alook m s = some ls0 ∧ l ∈ ls0) ∨
        ∃ stns, (l, stns) ∈ items ∧ s ∈ stns)) := by
  induction items generalizing m with
  | nil =>
    constructor
    · simp
    · intro ls l hsome
      simp only [List.foldl_nil] at hsome
      simp [hsome]
  | cons item rest ih =>
    obtain ⟨n, stns⟩ := item
    have hstep : alook (slStep m (n, stns)) s =
        if s ∈ stns then some (sadd ((alook m s).getD []) n) else alook m s :=
      alook_slFold n stns m s
    obtain ⟨ihA, ihB⟩ := ih (slStep m (n, stns))
    constructor
    · rw [List.foldl_cons, ihA, hstep]
      by_cases hs : s ∈ stns
      · simp only [if_pos hs]
        constructor
        · intro
          exact Or.inr ⟨(n, stns), List.mem_cons_self _ _, hs⟩
        · intro
          exact Or.inl (by simp)
      · simp only [if_neg hs]
        constructor
        · rintro (h | ⟨pr, hpr, hmem⟩)
          · exact Or.inl h
          · exact Or.inr ⟨pr, List.mem_cons_of_mem _ hpr, hmem⟩
        · rintro (h | ⟨pr, hpr, hmem⟩)
          · exact Or.inl h
          · rcases List.mem_cons.mp hpr with rfl | hpr2
            · exact absurd hmem hs
            · exact Or.inr ⟨pr, hpr2, hmem⟩
    · intro ls l hsome
      rw [List.foldl_cons] at hsome
      rw [ihB ls l hsome, hstep]
      by_cases hs : s ∈ stns
      · simp only [if_pos hs]
        constructor
        · rintro (⟨ls1, hls1, hmem⟩ | ⟨stns2, hpr, hsmem⟩)
          · rcases ((mem_sadd _ _ _).mp (by
                injection hls1 with h1
                exact h1 ▸ hmem)) with h | rfl
            · cases hget : alook m s with
              | none => simp [hget] at h
              | some ls0 => exact Or.inl ⟨ls0, rfl, by simpa [hget] using h⟩
            · exact Or.inr ⟨stns, List.mem_cons_self _ _, hs⟩
          · exact Or.inr ⟨stns2, List.mem_cons_of_mem _ hpr, hsmem⟩
        · rintro (⟨ls0, hls0, hmem⟩ | ⟨stns2, hpr, hsmem⟩)
          · exact Or.inl ⟨_, rfl, (mem_sadd _ _ _).mpr (Or.inl (by simp [hls0, hmem]))⟩
          · rcases List.mem_cons.mp hpr with heq | hpr2
            · have hln : l = n := congrArg Prod.fst heq
              exact Or.inl ⟨_, rfl, (mem_sadd _ _ _).mpr (Or.inr hln)⟩
            · exact Or.inr ⟨stns2, hpr2, hsmem⟩
      · simp only [if_neg hs]
        constructor
        · rintro (⟨ls1, hls1, hmem⟩ | ⟨stns2, hpr, hsmem⟩)
          · exact Or.inl ⟨ls1, hls1, hmem⟩
          · exact Or.inr ⟨stns2, List.mem_cons_of_mem _ hpr, hsmem⟩
        · rintro (⟨ls0, hls0, hmem⟩ | ⟨stns2, hpr, hsmem⟩)
          · exact Or.inl ⟨ls0, hls0, hmem⟩
          · rcases List.mem_cons.mp hpr with heq | hpr2
            · have : s ∈ stns := by
                have h2 : stns2 = stns := congrArg Prod.snd heq
                exact h2 ▸ hsmem
              exact absurd this hs
            · exact Or.inr ⟨stns2, hpr2, hsmem⟩

theorem mem_adjPairs {p : Station × Station} :
    ∀ {stns : List Station}, p ∈ adjPairs stns → p.1 ∈ stns ∧ p.2 ∈ stns := by
  intro stns
  induction stns with
  | nil => intro h; simp [adjPairs] at h
  | cons a rest ih =>
    cases rest with
    | nil => intro h; simp [adjPairs] at h
    | cons b rest2 =>
      intro h
      rcases List.mem_cons.mp h with heq | hmem
      · constructor
        · rw [show p.1 = a from congrArg Prod.fst heq]
          exact List.mem_cons_self _ _
        · rw [show p.2 = b from congrArg Prod.snd heq]
          exact List.mem_cons_of_mem _ (List.mem_cons_self _ _)
      · obtain ⟨h1, h2⟩ := ih hmem
        exact ⟨List.mem_cons_of_mem _ h1, List.mem_cons_of_mem _ h2⟩

/-- Soundness of edge labels: every label of an edge incident to `a` is
the name of an input line whose sequence contains both endpoints. -/
def SoundG (items : List (Line × List Station)) (g : Graph) : Prop :=
  ∀ a b lab l, alook2 g a b = some lab → l ∈ lab →
    ∃ stns, (l, stns) ∈ items ∧ a ∈ stns ∧ b ∈ stns

theorem soundG_gAdd {items : List (Line × List Station)} {g : Graph}
    (h : SoundG items g) {n : Line} {stns : List Station}
    (hin : (n, stns) ∈ items) {a0 b0 : Station} (ha : a0 ∈ stns)
    (hb : b0 ∈ stns) : SoundG items (gAdd g a0 b0 n) := by
  intro a b lab l hlook hl
  rw [alook2_gAdd] at hlook
  by_cases hc : a0 = a ∧ b0 = b
  · rw [if_pos hc] at hlook
    injection hlook with hlab
    rcases (mem_sadd _ _ _).mp (hlab ▸ hl) with hold | rfl
    · cases hget : alook2 g a0 b0 with
      | none => simp [hget] at hold
      | some lab0 =>
        obtain ⟨stns2, h1, h2, h3⟩ := h a0 b0 lab0 l hget (by simpa [hget] using hold)
        exact ⟨stns2, h1, hc.1 ▸ h2, hc.2 ▸ h3⟩
    · exact ⟨stns, hin, hc.1 ▸ ha, hc.2 ▸ hb⟩
  · rw [if_neg hc] at hlook
    exact h a b lab l hlook hl

theorem soundG_foldl_pairs {items : List (Line × List Station)} {n : Line}
    {stns : List Station} (hin : (n, stns) ∈ items) :
    ∀ (ps : List (Station × Station)) (g : Graph),
      (∀ p ∈ ps, p.1 ∈ stns ∧ p.2 ∈ stns) → SoundG items g →
      SoundG items (ps.foldl (gAddPair n) g) := by
  intro ps
  induction ps with
  | nil => intro g _ h; exact h
  | cons p rest ih =>
    intro g hps h
    have hp := hps p (List.mem_cons_self _ _)
    have hrest := fun q hq => hps q (List.mem_cons_of_mem _ hq)
    exact ih (gAddPair n g p) hrest
      (soundG_gAdd (soundG_gAdd h hin hp.1 hp.2) hin hp.2 hp.1)

theorem soundG_foldl_gStep {items : List (Line × List Station)} :
    ∀ (procd : List (Line × List Station)) (g : Graph),
      (∀ pr ∈ procd, pr ∈ items) → SoundG items g →
      SoundG items (procd.foldl gStep g) := by
  intro procd
  induction procd with
  | nil => intro g _ h; exact h
  | cons item rest ih =>
    intro g hsub h
    refine ih (gStep g item) (fun q hq => hsub q (List.mem_cons_of_mem _ hq)) ?_
    obtain ⟨n, stns⟩ := item
    exact soundG_foldl_pairs (hsub (n, stns) (List.mem_cons_self _ _))
      (adjPairs stns) g (fun p hp => mem_adjPairs hp) h

theorem soundG_build (items : List (Line × List Station)) :
    SoundG items (build_graph_and_station_lines items).1 := by
  have hproj := buildStep_g_proj items ([], [], [])
  show SoundG items (items.foldl buildStep ([], [], [])).1
  rw [hproj]
  exact soundG_foldl_gStep items [] (fun _ h => h)
    (fun a b lab l hlook => by simp [alook2, alook] at hlook)

/-- Claim C5 (amended): the builder validates nothing and always returns;
on every input — including line definitions with duplicated stations — it
produces a station-lines index whose keys are exactly the stations that
occur in at least one line's sequence. -/
theorem c5_builder_total_no_validation (items : List (Line × List Station))
    (s : Station) :
    (alook (build_graph_and_station_lines items).2.1 s).isSome ↔
      ∃ pr ∈ items, s ∈ pr.2 := by
  show (alook (items.foldl buildStep ([], [], [])).2.1 s).isSome ↔ _
  rw [buildStep_sl_proj]
  rw [(slStep_foldl_char items [] s).1]
  simp [alook]

/-- Claim C7: a station is a key of the station-lines index iff it appears
in at least one input line's sequence, and its entry holds exactly the
line names that either label an edge incident to the station or name a
line whose sequence contains the station (the first set is included in the
second, so endpoints and single-station lines are covered). -/
theorem c7_station_lines_index (items : List (Line × List Station)) (s : Station) :
    ((alook (build_graph_and_station_lines items).2.1 s).isSome ↔
      ∃ pr ∈ items, s ∈ pr.2) ∧
    (∀ ls l, alook (build_graph_and_station_lines items).2.1 s = some ls →
      (l ∈ ls ↔
        (∃ b lab, alook2 (build_graph_and_station_lines items).1 s b = some lab ∧
            l ∈ lab) ∨
          ∃ stns, (l, stns) ∈ items ∧ s ∈ stns)) := by
  constructor
  · exact c5_builder_total_no_validation items s
  · intro ls l hsome
    have hchar := (slStep_foldl_char items [] s).2 ls l
      (by
        have hproj := buildStep_sl_proj items ([], [], [])
        rw [← hproj]
        exact hsome)
    rw [hchar]
    constructor
    · rintro (⟨ls0, hls0, -⟩ | hmem)
      · simp [alook] at hls0
      · exact Or.inr hmem
    · rintro (⟨b, lab, hlook, hl⟩ | hmem)
      · obtain ⟨stns, h1, h2, -⟩ := soundG_build items s b lab l hlook hl
        exact Or.inr ⟨stns, h1, h2⟩
      · exact Or.inr hmem

/-- Witness for `c7_station_lines_index` on `netA` at station X with its
index entry `[A, B, C]` and line B. -/
theorem c7_station_lines_index_witness :
    (((alook (build_graph_and_station_lines netA).2.1 "X").isSome ↔
        ∃ pr ∈ netA, "X" ∈ pr.2) ∧
      ("B" ∈ ["A", "B", "C"] ↔
        (∃ b lab, alook2 (build_graph_and_station_lines netA).1 "X" b = some lab ∧
            "B" ∈ lab) ∨
          ∃ stns, ("B", stns) ∈ netA ∧ "X" ∈ stns)) :=
  ⟨(c7_station_lines_index netA "X").1,
    (c7_station_lines_index netA "X").2 ["A", "B", "C"] "B" (by decide)⟩

/-! ## Frame effects of the search (amended C8) -/

def Out.graph : Out → Graph
  | .found _ g => g
  | .nopath g => g
  | .crash g => g

def PyResult.graph : PyResult → Graph
  | .ret _ g _ => g
  | .exn g _ => g

def PyResult.sl : PyResult → SL
  | .ret _ _ sl => sl
  | .exn _ sl => sl

/-- `g2` is `g` with only fresh empty-adjacency entries appended (the only
mutation the `defaultdict` graph can undergo during a query). -/
def ExtendsEmpty (g g2 : Graph) : Prop :=
  ∃ ext, g2 = g ++ ext ∧ ∀ p ∈ ext, p.2 = ([] : Adj)

theorem extendsEmpty_refl (g : Graph) : ExtendsEmpty g g :=
  ⟨[], (List.append_nil g).symm, by simp⟩

theorem extendsEmpty_trans {g1 g2 g3 : Graph} (h12 : ExtendsEmpty g1 g2)
    (h23 : ExtendsEmpty g2 g3) : ExtendsEmpty g1 g3 := by
  obtain ⟨e1, rfl, he1⟩ := h12
  obtain ⟨e2, rfl, he2⟩ := h23
  refine ⟨e1 ++ e2, List.append_assoc g1 e1 e2, ?_⟩
  intro p hp
  rcases List.mem_append.mp hp with h | h
  · exact he1 p h
  · exact he2 p h

theorem graphGetD_extends (g : Graph) (s : Station) :
    ExtendsEmpty g (graphGetD g s).2 := by
  unfold graphGetD
  cases alook g s with
  | some adj => exact extendsEmpty_refl g
  | none => exact ⟨[(s, [])], rfl, by simp⟩

theorem findLoop_extends (dest : Station) :
    ∀ (fuel : Nat) (pq : List Entry) (v : Visited) (g : Graph) (out : Out),
      findLoop dest fuel pq v g = some out → ExtendsEmpty g out.graph := by
  intro fuel
  induction fuel with
  | zero => intro pq v g out h; simp [findLoop] at h
  | succ n ih =>
    intro pq v g out h
    cases pq with
    | nil =>
      simp only [findLoop, Option.some.injEq] at h
      rw [← h]
      exact extendsEmpty_refl g
    | cons e rest =>
      rw [findLoop] at h
      by_cases hst : staleB v e = true
      · rw [if_pos hst] at h
        exact ih rest v g out h
      · rw [if_neg hst] at h
        by_cases hdest : e.stn = dest
        · rw [if_pos hdest] at h
          injection h with h2
          rw [← h2]
          exact extendsEmpty_refl g
        · rw [if_neg hdest] at h
          cases hexp : expand e (graphGetD g e.stn).1 (rest, v) with
          | none =>
            rw [hexp] at h
            injection h with h2
            rw [← h2]
            exact graphGetD_extends g e.stn
          | some pv =>
            rw [hexp] at h
            exact extendsEmpty_trans (graphGetD_extends g e.stn)
              (ih pv.1 pv.2 (graphGetD g e.stn).2 out h)

theorem alook_append {α : Type} (l1 l2 : List (String × α)) (k : String) :
    alook (l1 ++ l2) k =
      match alook l1 k with
      | some v => some v
      | none => alook l2 k := by
  induction l1 with
  | nil => simp [alook]
  | cons p rest ih =>
    obtain ⟨k2, v⟩ := p
    by_cases hk : k2 = k <;> simp [alook, hk, ih]

theorem alook_all_empty {ext : Graph} (h : ∀ p ∈ ext, p.2 = ([] : Adj))
    (s : Station) : alook ext s = none ∨ alook ext s = some [] := by
  induction ext with
  | nil => exact Or.inl rfl
  | cons p rest ih =>
    obtain ⟨k2, v⟩ := p
    by_cases hk : k2 = s
    · right
      have hv : v = [] := h (k2, v) (List.mem_cons_self _ _)
      simp [alook, hk, hv]
    · rw [show alook ((k2, v) :: rest) s = alook rest s by simp [alook, hk]]
      exact ih (fun q hq => h q (List.mem_cons_of_mem _ hq))

theorem extendsEmpty_lookups {g g2 : Graph} (h : ExtendsEmpty g g2) :
    (∀ s v, alook g s = some v → alook g2 s = some v) ∧
    (∀ s, alook g s = none → alook g2 s = none ∨ alook g2 s = some []) := by
  obtain ⟨ext, rfl, hext⟩ := h
  constructor
  · intro s v hv
    rw [alook_append, hv]
  · intro s hnone
    rw [alook_append, hnone]
    exact alook_all_empty hext s

/-- Claim C8 (amended): `find_min_switch_path` leaves the station-lines
index untouched and never modifies or removes an existing graph entry; its
only side effect is that the `defaultdict` graph may gain fresh keys with
empty adjacency dicts (for popped stations that had no graph entry), so
the graph's key set can grow. -/
theorem c8_mutation_only_empty_inserts (g : Graph) (sl : SL) (src dest : Station)
    (fuel : Nat) (out : PyResult)
    (h : find_min_switch_path g sl src dest fuel = some out) :
    out.sl = sl ∧
    (∀ s v, alook g s = some v → alook out.graph s = some v) ∧
    (∀ s, alook g s = none → alook out.graph s = none ∨ alook out.graph s = some []) := by
  unfold find_min_switch_path at h
  by_cases hguard : ((alook sl src).isNone || (alook sl dest).isNone) = true
  · rw [if_pos hguard] at h
    injection h with h2
    rw [← h2]
    refine ⟨rfl, ?_, ?_⟩
    · intro s v hv; exact hv
    · intro s hnone; exact Or.inl hnone
  · rw [if_neg hguard] at h
    have hsrc : (alook sl src).isNone = false := by
      cases hx : (alook sl src).isNone with
      | false => rfl
      | true => exact absurd (by rw [hx]; rfl) hguard
    have hsl2 : (slGetD sl src).2 = sl := by
      unfold slGetD
      cases hx : alook sl src with
      | none => rw [hx] at hsrc; simp at hsrc
      | some ls => rfl
    cases hloop : findLoop dest fuel (seedPQ src (slGetD sl src).1).1
        (seedPQ src (slGetD sl src).1).2 g with
    | none => rw [hloop] at h; simp [wrapOut] at h
    | some o =>
      rw [hloop] at h
      have hext := findLoop_extends dest fuel _ _ g o hloop
      have hlk := extendsEmpty_lookups hext
      have hgr : out.graph = o.graph ∧ out.sl = (slGetD sl src).2 := by
        cases o with
        | found e g2 =>
          simp only [wrapOut, Option.some.injEq] at h
          rw [← h]
          exact ⟨rfl, rfl⟩
        | nopath g2 =>
          simp only [wrapOut, Option.some.injEq] at h
          rw [← h]
          exact ⟨rfl, rfl⟩
        | crash g2 =>
          simp only [wrapOut, Option.some.injEq] at h
          rw [← h]
          exact ⟨rfl, rfl⟩
      refine ⟨hgr.2.trans hsl2, ?_, ?_⟩
      · intro s v hv
        rw [hgr.1]
        exact hlk.1 s v hv
      · intro s hnone
        rw [hgr.1]
        exact hlk.2 s hnone

/-- Witness for `c8_mutation_only_empty_inserts`: the isolated-station
query X → A on `netB`. -/
theorem c8_mutation_only_empty_inserts_witness :
    (PyResult.ret none (gB ++ [("X", [])]) slB).sl = slB ∧
    (∀ s v, alook gB s = some v →
      alook (PyResult.ret none (gB ++ [("X", [])]) slB).graph s = some v) ∧
    (∀ s, alook gB s = none →
      alook (PyResult.ret none (gB ++ [("X", [])]) slB).graph s = none ∨
      alook (PyResult.ret none (gB ++ [("X", [])]) slB).graph s = some []) :=
  c8_mutation_only_empty_inserts gB slB "X" "A" 20
    (PyResult.ret none (gB ++ [("X", [])]) slB) (by decide)

/-! ## The parent chains of frontier entries are valid walks (C10) -/

/-- Well-formedness inherited from Python dicts: every adjacency dict of
the graph has no duplicate keys. -/
def WFAdj (g : Graph) : Prop :=
  ∀ p ∈ g, ((p.2.map Prod.fst).Nodup : Prop)

theorem mem_of_alook {α : Type} :
    ∀ {l : List (String × α)} {k : String} {v : α},
      alook l k = some v → (k, v) ∈ l := by
  intro l
  induction l with
  | nil => intro k v h; simp [alook] at h
  | cons q rest ih =>
    intro k v h
    obtain ⟨k2, w⟩ := q
    by_cases hk : k2 = k
    · rw [show alook ((k2, w) :: rest) k = some w by simp [alook, hk]] at h
      injection h with h2
      rw [← h2, ← hk]
      exact List.mem_cons_self _ _
    · rw [show alook ((k2, w) :: rest) k = alook rest k by simp [alook, hk]] at h
      exact List.mem_cons_of_mem _ (ih h)

theorem wfAdj_alook {g : Graph} (h : WFAdj g) {s : Station} {adj : Adj}
    (hl : alook g s = some adj) : (adj.map Prod.fst).Nodup :=
  h (s, adj) (mem_of_alook hl)

theorem alook_of_mem_nodup {α : Type} {l : List (String × α)}
    (hnd : (l.map Prod.fst).Nodup) {p : String × α} (hp : p ∈ l) :
    alook l p.1 = some p.2 := by
  induction l with
  | nil => simp at hp
  | cons q rest ih =>
    rcases List.mem_cons.mp hp with rfl | hp2
    · show alook (p :: rest) p.1 = some p.2
      obtain ⟨k, v⟩ := p
      simp [alook]
    · obtain ⟨k, v⟩ := q
      have hk : ¬ k = p.1 := by
        intro hk
        have : p.1 ∈ rest.map Prod.fst := List.mem_map_of_mem Prod.fst hp2
        rw [← hk] at this
        exact (List.nodup_cons.mp (by simpa using hnd)).1 this
      rw [show alook ((k, v) :: rest) p.1 = alook rest p.1 by simp [alook, hk]]
      exact ih (List.nodup_cons.mp (by simpa using hnd)).2 hp2

theorem graphGetD_self (g : Graph) (s : Station) :
    alook (graphGetD g s).2 s = some (graphGetD g s).1 := by
  unfold graphGetD
  cases hx : alook g s with
  | some adj => exact hx
  | none => rw [alook_append, hx]; simp [alook]

theorem wfAdj_graphGetD {g : Graph} (h : WFAdj g) (s : Station) :
    WFAdj (graphGetD g s).2 := by
  unfold graphGetD
  cases hx : alook g s with
  | some adj => exact h
  | none =>
    intro p hp
    rcases List.mem_append.mp hp with hp2 | hp2
    · exact h p hp2
    · rcases List.mem_cons.mp hp2 with rfl | hp3
      · simp
      · simp at hp3

/-- The parent chain of a frontier entry is a valid walk from the source:
the root is at the source, and every `node` step follows an edge of the
graph labelled with the line arrived on. -/
def ChainOk (g : Graph) (src : Station) : Entry → Prop
  | .root _ _ s _ => s = src
  | .node _ _ s l p =>
      ChainOk g src p ∧ ∃ lab, alook2 g p.stn s = some lab ∧ l ∈ lab

theorem extendsEmpty_alook2_fwd {g g2 : Graph} (h : ExtendsEmpty g g2)
    {a b : Station} {lab : Labels} (hl : alook2 g a b = some lab) :
    alook2 g2 a b = some lab := by
  unfold alook2 at hl ⊢
  cases hx : alook g a with
  | none => rw [hx] at hl; exact absurd hl (by simp)
  | some adj =>
    rw [hx] at hl
    rw [(extendsEmpty_lookups h).1 a adj hx]
    exact hl

theorem extendsEmpty_alook2_rev {g g2 : Graph} (h : ExtendsEmpty g g2)
    {a b : Station} {lab : Labels} (hl : alook2 g2 a b = some lab) :
    alook2 g a b = some lab := by
  unfold alook2 at hl ⊢
  cases hx : alook g a with
  | some adj =>
    rw [(extendsEmpty_lookups h).1 a adj hx] at hl
    exact hl
  | none =>
    rcases (extendsEmpty_lookups h).2 a hx with hy | hy <;> rw [hy] at hl
    · exact absurd hl (by simp)
    · exact absurd hl (by simp [alook])

theorem chainOk_fwd {g g2 : Graph} (h : ExtendsEmpty g g2) (src : Station) :
    ∀ e : Entry, ChainOk g src e → ChainOk g2 src e := by
  intro e
  induction e with
  | root sw st s l => exact fun hc => hc
  | node sw st s l p ih =>
    rintro ⟨hp, lab, hlook, hmem⟩
    exact ⟨ih hp, lab, extendsEmpty_alook2_fwd h hlook, hmem⟩

theorem chainOk_rev {g g2 : Graph} (h : ExtendsEmpty g g2) (src : Station) :
    ∀ e : Entry, ChainOk g2 src e → ChainOk g src e := by
  intro e
  induction e with
  | root sw st s l => exact fun hc => hc
  | node sw st s l p ih =>
    rintro ⟨hp, lab, hlook, hmem⟩
    exact ⟨ih hp, lab, extendsEmpty_alook2_rev h hlook, hmem⟩

theorem strMin_mem (a b : String) : strMin a b = a ∨ strMin a b = b := by
  unfold strMin
  by_cases hc : strLtB b a = true <;> simp [hc]

theorem pymin_mem {ls : Labels} {m : Line} (h : pymin ls = some m) : m ∈ ls := by
  cases ls with
  | nil => simp [pymin] at h
  | cons x xs =>
    simp only [pymin, Option.some.injEq] at h
    subst h
    induction xs generalizing x with
    | nil => simp
    | cons y ys ih =>
      rw [List.foldl_cons]
      rcases List.mem_cons.mp (ih (strMin x y)) with hh | hh
      · rw [hh]
        rcases strMin_mem x y with hm | hm <;> rw [hm]
        · exact List.mem_cons_self _ _
        · exact List.mem_cons_of_mem _ (List.mem_cons_self _ _)
      · exact List.mem_cons_of_mem _ (List.mem_cons_of_mem _ hh)

theorem mem_pqInsert {e x : Entry} :
    ∀ {l : List Entry}, x ∈ pqInsert e l → x = e ∨ x ∈ l := by
  intro l
  induction l with
  | nil => intro h; simp [pqInsert] at h; exact Or.inl h
  | cons y ys ih =>
    intro h
    unfold pqInsert at h
    by_cases hc : entryLe e y = true
    · rw [if_pos hc] at h
      rcases List.mem_cons.mp h with rfl | h2
      · exact Or.inl rfl
      · exact Or.inr h2
    · rw [if_neg hc] at h
      rcases List.mem_cons.mp h with rfl | h2
      · exact Or.inr (List.mem_cons_self _ _)
      · rcases ih h2 with h3 | h3
        · exact Or.inl h3
        · exact Or.inr (List.mem_cons_of_mem _ h3)

theorem mem_seedPQ {src : Station} {ls : Labels} {x : Entry}
    (h : x ∈ (seedPQ src ls).1) : ∃ l, x = Entry.root 0 0 src l := by
  suffices hgen : ∀ (acc : List Entry × Visited),
      (∀ y ∈ acc.1, ∃ l, y = Entry.root 0 0 src l) →
      ∀ y ∈ (ls.foldl (fun acc l =>
        (pqInsert (Entry.root 0 0 src l) acc.1, vset acc.2 (src, l) (0, 1))) acc).1,
        ∃ l, y = Entry.root 0 0 src l by
    exact hgen ([], fun _ => none) (by simp) x h
  clear h
  induction ls with
  | nil => intro acc hacc y hy; exact hacc y hy
  | cons l rest ih =>
    intro acc hacc y hy
    rw [List.foldl_cons] at hy
    refine ih (pqInsert (Entry.root 0 0 src l) acc.1, vset acc.2 (src, l) (0, 1))
      (fun z hz => ?_) y hy
    rcases mem_pqInsert hz with rfl | hz2
    · exact ⟨l, rfl⟩
    · exact hacc z hz2

theorem relax_chainOk {g : Graph} {src : Station} {e : Entry}
    (he : ChainOk g src e) {acc acc2 : List Entry × Visited}
    {nb : Station × Labels} (hedge : alook2 g e.stn nb.1 = some nb.2)
    (hacc : ∀ x ∈ acc.1, ChainOk g src x)
    (h : relax e acc nb = some acc2) :
    ∀ x ∈ acc2.1, ChainOk g src x := by
  simp only [relax] at h
  split at h
  · exact absurd h (by simp)
  · next el heq =>
    have helmem : el ∈ nb.2 := by
      by_cases hc : e.lin ∈ nb.2
      · rw [if_pos hc] at heq
        injection heq with h2
        exact h2 ▸ hc
      · rw [if_neg hc] at heq
        exact pymin_mem heq
    split at h
    · injection h with h2
      rw [← h2]
      intro x hx
      rcases mem_pqInsert hx with rfl | hx2
      · exact ⟨he, nb.2, hedge, helmem⟩
      · exact hacc x hx2
    · injection h with h2
      rw [← h2]
      exact hacc

theorem expand_chainOk {g : Graph} {src : Station} {e : Entry}
    (he : ChainOk g src e) :
    ∀ (adj : Adj) (acc acc2 : List Entry × Visited),
      (∀ p ∈ adj, alook2 g e.stn p.1 = some p.2) →
      (∀ x ∈ acc.1, ChainOk g src x) →
      expand e adj acc = some acc2 →
      ∀ x ∈ acc2.1, ChainOk g src x := by
  intro adj
  induction adj with
  | nil =>
    intro acc acc2 _ hacc h
    unfold expand at h
    injection h with h2
    exact h2 ▸ hacc
  | cons nb rest ih =>
    intro acc acc2 hadj hacc h
    unfold expand at h
    cases hr : relax e acc nb with
    | none => rw [hr] at h; exact absurd h (by simp)
    | some accm =>
      rw [hr] at h
      exact ih accm acc2 (fun p hp => hadj p (List.mem_cons_of_mem _ hp))
        (relax_chainOk he (hadj nb (List.mem_cons_self _ _)) hacc hr) h

theorem findLoop_found_valid (dest src : Station) :
    ∀ (fuel : Nat) (pq : List Entry) (v : Visited) (g : Graph) (e : Entry)
      (g2 : Graph),
      WFAdj g →
      (∀ x ∈ pq, ChainOk g src x) →
      findLoop dest fuel pq v g = some (Out.found e g2) →
      ChainOk g2 src e ∧ e.stn = dest := by
  intro fuel
  induction fuel with
  | zero => intro pq v g e g2 _ _ h; simp [findLoop] at h
  | succ n ih =>
    intro pq v g e g2 hwf hpq h
    cases pq with
    | nil => simp [findLoop] at h
    | cons e0 rest =>
      rw [findLoop] at h
      by_cases hst : staleB v e0 = true
      · rw [if_pos hst] at h
        exact ih rest v g e g2 hwf (fun x hx => hpq x (List.mem_cons_of_mem _ hx)) h
      · rw [if_neg hst] at h
        by_cases hd : e0.stn = dest
        · rw [if_pos hd] at h
          injection h with h2
          injection h2 with he hg
          subst he
          subst hg
          exact ⟨hpq e0 (List.mem_cons_self _ _), hd⟩
        · rw [if_neg hd] at h
          cases hexp : expand e0 (graphGetD g e0.stn).1 (rest, v) with
          | none => rw [hexp] at h; simp at h
          | some pv =>
            rw [hexp] at h
            have hext := graphGetD_extends g e0.stn
            have hwf2 := wfAdj_graphGetD hwf e0.stn
            have hadj : ∀ p ∈ (graphGetD g e0.stn).1,
                alook2 (graphGetD g e0.stn).2 e0.stn p.1 = some p.2 := by
              intro p hp
              have hnd := wfAdj_alook hwf2 (graphGetD_self g e0.stn)
              unfold alook2
              rw [graphGetD_self g e0.stn]
              exact alook_of_mem_nodup hnd hp
            have hpv : ∀ x ∈ pv.1, ChainOk (graphGetD g e0.stn).2 src x :=
              expand_chainOk
                (chainOk_fwd hext src e0 (hpq e0 (List.mem_cons_self _ _)))
                (graphGetD g e0.stn).1 (rest, v) pv hadj
                (fun x hx => chainOk_fwd hext src x (hpq x (List.mem_cons_of_mem _ hx)))
                hexp
            exact ih pv.1 pv.2 (graphGetD g e0.stn).2 e g2 hwf2 hpv h

theorem revStations_ne_nil (e : Entry) : revStations e ≠ [] := by
  cases e <;> simp [revStations]

theorem revLines_length (e : Entry) :
    (revLines e).length = (revStations e).length := by
  induction e <;> simp [revLines, revStations, *]

theorem head?_append_of_ne_nil {α : Type} (xs ys : List α) (h : xs ≠ []) :
    (xs ++ ys).head? = xs.head? := by
  cases xs with
  | nil => exact absurd rfl h
  | cons a t => rfl

theorem tail_append_of_ne_nil {α : Type} (xs ys : List α) (h : xs ≠ []) :
    (xs ++ ys).tail = xs.tail ++ ys := by
  cases xs with
  | nil => exact absurd rfl h
  | cons a t => rfl

theorem getLast?_concat {α : Type} (xs : List α) (a : α) :
    (xs ++ [a]).getLast? = some a := by
  induction xs with
  | nil => rfl
  | cons b t ih =>
    rw [List.cons_append]
    rw [show (b :: (t ++ [a])).getLast? = (t ++ [a]).getLast? by
      cases hx : t ++ [a] with
      | nil => exact absurd hx (by simp)
      | cons c u => simp [List.getLast?_cons_cons]]
    exact ih

theorem chainB_append_edge {g : Graph} :
    ∀ (W : List Station) (L : List Line) (a s : Station) (l : Line),
      chainB g W L = true → W.getLast? = some a → edgeOkB g a s l = true →
      chainB g (W ++ [s]) (L ++ [l]) = true := by
  intro W
  induction W with
  | nil =>
    intro L a s l hW _ _
    cases L <;> simp [chainB] at hW
  | cons w ws ih =>
    intro L a s l hW hlast hedge
    cases ws with
    | nil =>
      cases L with
      | nil =>
        have haw : w = a := by
          injection hlast
        subst haw
        simp [chainB, hedge]
      | cons l1 ls => simp [chainB] at hW
    | cons w2 ws2 =>
      cases L with
      | nil => simp [chainB] at hW
      | cons l1 ls =>
        have hW2 : (edgeOkB g w w2 l1 && chainB g (w2 :: ws2) ls) = true := hW
        simp only [Bool.and_eq_true] at hW2
        obtain ⟨h1, h2⟩ := hW2
        rw [List.getLast?_cons_cons] at hlast
        show (edgeOkB g w w2 l1 && chainB g ((w2 :: ws2) ++ [s]) (ls ++ [l])) = true
        rw [h1, ih ls a s l h2 hlast hedge]
        rfl

theorem chainOk_reconstruct {g : Graph} {src : Station} :
    ∀ e : Entry, ChainOk g src e →
      ((revStations e).reverse).head? = some src ∧
      ((revStations e).reverse).getLast? = some e.stn ∧
      chainB g ((revStations e).reverse) (((revLines e).reverse).tail) = true := by
  intro e
  induction e with
  | root sw st s l =>
    intro hc
    have hc2 : s = src := hc
    refine ⟨?_, ?_, ?_⟩ <;> simp [revStations, revLines, chainB, hc2, Entry.stn]
  | node sw st s l p ih =>
    rintro ⟨hp, lab, hlook, hmem⟩
    obtain ⟨ih1, ih2, ih3⟩ := ih hp
    have hrs : (revStations (Entry.node sw st s l p)).reverse =
        (revStations p).reverse ++ [s] := by
      simp [revStations]
    have hrl : (revLines (Entry.node sw st s l p)).reverse =
        (revLines p).reverse ++ [l] := by
      simp [revLines]
    have hne : (revStations p).reverse ≠ [] := by
      simp [revStations_ne_nil p]
    have hnel : (revLines p).reverse ≠ [] := by
      have := revLines_length p
      intro hcon
      apply revStations_ne_nil p
      have h1 : (revLines p).length = 0 := by
        simpa using congrArg List.length hcon
      rw [this] at h1
      simpa using h1
    refine ⟨?_, ?_, ?_⟩
    · rw [hrs, head?_append_of_ne_nil _ _ hne]
      exact ih1
    · rw [hrs, getLast?_concat]
      rfl
    · rw [hrs, hrl, tail_append_of_ne_nil _ _ hnel]
      have hedge : edgeOkB g p.stn s l = true := by
        unfold edgeOkB
        rw [hlook]
        simpa using hmem
      exact chainB_append_edge _ _ p.stn s l ih3 ih2 hedge

theorem revStations_length_pos (e : Entry) : 0 < (revStations e).length := by
  cases e <;> simp [revStations]

/-- Claim C10: whenever `find_min_switch_path` returns a non-None result
on a well-formed graph, the returned station sequence starts at the
source, ends at the destination, carries exactly one edge line per
consecutive pair, and every consecutive pair is an edge of the input graph
whose label set contains the corresponding returned line. -/
theorem c10_returned_path_is_valid_walk (g : Graph) (sl : SL)
    (src dest : Station) (fuel : Nat) (p : List Station) (sw st : Nat)
    (els : List Line) (g2 : Graph) (sl2 : SL) (hwf : WFAdj g)
    (h : find_min_switch_path g sl src dest fuel =
      some (PyResult.ret (some (p, sw, st, els)) g2 sl2)) :
    p.head? = some src ∧ p.getLast? = some dest ∧
    els.length + 1 = p.length ∧ chainB g p els = true := by
  unfold find_min_switch_path at h
  by_cases hguard : ((alook sl src).isNone || (alook sl dest).isNone) = true
  · rw [if_pos hguard] at h
    injection h with h2
    injection h2 with h3
    exact absurd h3 (by simp)
  · rw [if_neg hguard] at h
    cases hloop : findLoop dest fuel (seedPQ src (slGetD sl src).1).1
        (seedPQ src (slGetD sl src).1).2 g with
    | none => rw [hloop] at h; simp [wrapOut] at h
    | some o =>
      rw [hloop] at h
      cases o with
      | nopath g3 => simp [wrapOut] at h
      | crash g3 => simp [wrapOut] at h
      | found e g3 =>
        simp only [wrapOut, Option.some.injEq] at h
        injection h with hr hg hsl
        have hrec : reconstruct e = (p, sw, st, els) := by
          injection hr
        have hp : p = (revStations e).reverse := by
          have := congrArg Prod.fst hrec
          simpa [reconstruct] using this.symm
        have hels : els = ((revLines e).reverse).tail := by
          have := congrArg (fun q => q.2.2.2) hrec
          simpa [reconstruct] using this.symm
        have hseed : ∀ x ∈ (seedPQ src (slGetD sl src).1).1, ChainOk g src x := by
          intro x hx
          obtain ⟨l, rfl⟩ := mem_seedPQ hx
          show src = src
          rfl
        have hfound := findLoop_found_valid dest src fuel _ _ g e g3 hwf hseed hloop
        have hext : ExtendsEmpty g g3 := by
          have := findLoop_extends dest fuel _ _ g (Out.found e g3) hloop
          exact this
        have hchain : ChainOk g src e := chainOk_rev hext src e hfound.1
        obtain ⟨h1, h2, h3⟩ := chainOk_reconstruct e hchain
        refine ⟨?_, ?_, ?_, ?_⟩
        · rw [hp]; exact h1
        · rw [hp]; rw [h2]; rw [hfound.2]
        · rw [hp, hels]
          have hlen := revLines_length e
          have hpos := revStations_length_pos e
          simp only [List.length_reverse, List.length_tail]
          omega
        · rw [hp, hels]; exact h3

/-- Witness for `c10_returned_path_is_valid_walk`: the S → Z query on
`netA`. -/
theorem c10_returned_path_is_valid_walk_witness :
    (["S", "X", "Y", "Z"] : List Station).head? = some "S" ∧
    (["S", "X", "Y", "Z"] : List Station).getLast? = some "Z" ∧
    (["C", "A", "B"] : List Line).length + 1 =
      (["S", "X", "Y", "Z"] : List Station).length ∧
    chainB gA ["S", "X", "Y", "Z"] ["C", "A", "B"] = true :=
  c10_returned_path_is_valid_walk gA slA "S" "Z" 20 ["S", "X", "Y", "Z"] 2 3
    ["C", "A", "B"] gA slA (by unfold WFAdj; decide) (by decide)

/-! ## NotFound iff unreachable (C4) -/

/-- One traversable hop: the graph has an entry for the edge `a -> b`. -/
def Step (g : Graph) (a b : Station) : Prop := ∃ lab, alook2 g a b = some lab

/-- Station-level reachability in the graph. -/
def Reach (g : Graph) : Station → Station → Prop := Relation.ReflTransGen (Step g)

theorem blt_self (n : Nat) : n.blt n = false := by
  rw [Bool.eq_false_iff]
  intro hc
  exact absurd (Nat.blt_eq.mp hc) (Nat.lt_irrefl n)

theorem pairLtB_irrefl (c : Nat × Nat) : pairLtB c c = false := by
  simp [pairLtB, blt_self]

theorem mem_pqInsert_of_mem {x : Entry} {l : List Entry} (e : Entry)
    (h : x ∈ l) : x ∈ pqInsert e l := by
  induction l with
  | nil => simp at h
  | cons y ys ih =>
    unfold pqInsert
    by_cases hc : entryLe e y = true
    · rw [if_pos hc]
      exact List.mem_cons_of_mem _ h
    · rw [if_neg hc]
      rcases List.mem_cons.mp h with rfl | h2
      · exact List.mem_cons_self _ _
      · exact List.mem_cons_of_mem _ (ih h2)

theorem self_mem_pqInsert (e : Entry) (l : List Entry) : e ∈ pqInsert e l := by
  cases l with
  | nil => simp [pqInsert]
  | cons y ys =>
    unfold pqInsert
    by_cases hc : entryLe e y = true
    · rw [if_pos hc]; exact List.mem_cons_self _ _
    · rw [if_neg hc]
      exact List.mem_cons_of_mem _ (self_mem_pqInsert e ys)

/-- The expanded station has, for every neighbour, some line-state already
recorded in `visited`. -/
def Closed (v : Visited) (g : Graph) (s : Station) : Prop :=
  ∀ adj, alook g s = some adj → ∀ p ∈ adj, ∃ el, v (p.1, el) ≠ none

/-- The loop invariant for C4: every `visited` state either still has a
frontier entry at least as cheap as its recorded cost, or its station is
not the destination and has been fully expanded. -/
def InvC4 (dest : Station) (pq : List Entry) (v : Visited) (g : Graph) : Prop :=
  ∀ s l c, v (s, l) = some c →
    (∃ e ∈ pq, e.stn = s ∧ e.lin = l ∧ pairLtB c (e.sw, e.st) = false) ∨
    (s ≠ dest ∧ Closed v g s)

theorem closed_mono_v {v v2 : Visited} {g : Graph} {s : Station}
    (hmono : ∀ k, v k ≠ none → v2 k ≠ none) (h : Closed v g s) :
    Closed v2 g s := by
  intro adj hadj p hp
  obtain ⟨el, hel⟩ := h adj hadj p hp
  exact ⟨el, hmono _ hel⟩

theorem extendsEmpty_alook_rev {g g2 : Graph} (h : ExtendsEmpty g g2)
    {s : Station} {adj : Adj} (hl : alook g2 s = some adj) :
    alook g s = some adj ∨ adj = [] := by
  obtain ⟨ext, rfl, hext⟩ := h
  rw [alook_append] at hl
  cases hx : alook g s with
  | some a => rw [hx] at hl; exact Or.inl hl
  | none =>
    rw [hx] at hl
    rcases alook_all_empty hext s with hy | hy <;> rw [hy] at hl
    · exact absurd hl (by simp)
    · injection hl with h2
      exact Or.inr h2.symm

theorem closed_mono_g {v : Visited} {g g2 : Graph} {s : Station}
    (hext : ExtendsEmpty g g2) (h : Closed v g s) : Closed v g2 s := by
  intro adj hadj p hp
  rcases extendsEmpty_alook_rev hext hadj with h2 | rfl
  · exact h adj h2 p hp
  · simp at hp

/-- What one relaxation step does to the frontier and `visited`: both only
grow, the neighbour ends up recorded under some line, and every recorded
state is either old or has a fresh cost-matching frontier entry. -/
theorem relax_spec {e : Entry} {acc acc2 : List Entry × Visited}
    {nb : Station × Labels} (h : relax e acc nb = some acc2) :
    (∀ x ∈ acc.1, x ∈ acc2.1) ∧
    (∀ k, acc.2 k ≠ none → acc2.2 k ≠ none) ∧
    (∃ el, acc2.2 (nb.1, el) ≠ none) ∧
    (∀ s l c, acc2.2 (s, l) = some c → acc.2 (s, l) = some c ∨
      ∃ e2 ∈ acc2.1, e2.stn = s ∧ e2.lin = l ∧ pairLtB c (e2.sw, e2.st) = false) := by
  simp only [relax] at h
  split at h
  · exact absurd h (by simp)
  · next el heq =>
    split at h
    · next hbetter =>
      injection h with h2
      subst h2
      refine ⟨?_, ?_, ?_, ?_⟩
      · intro x hx
        exact mem_pqInsert_of_mem _ hx
      · intro k hk
        show vset acc.2 (nb.1, el) (relaxCost e el) k ≠ none
        unfold vset
        by_cases hkk : k = (nb.1, el) <;> simp [hkk]
        exact hk
      · refine ⟨el, ?_⟩
        show vset acc.2 (nb.1, el) (relaxCost e el) (nb.1, el) ≠ none
        unfold vset
        simp
      · intro s l c hc
        by_cases hkk : (s, l) = (nb.1, el)
        · right
          have hcv : c = relaxCost e el := by
            have h4 : vset acc.2 (nb.1, el) (relaxCost e el) (s, l) = some c := hc
            unfold vset at h4
            rw [if_pos hkk] at h4
            injection h4 with h3
            exact h3.symm
          refine ⟨Entry.node (relaxCost e el).1 (relaxCost e el).2
            nb.1 el e, self_mem_pqInsert _ _, ?_, ?_, ?_⟩
          · show nb.1 = s
            exact (congrArg Prod.fst hkk).symm
          · show el = l
            exact (congrArg Prod.snd hkk).symm
          · show pairLtB c ((relaxCost e el).1, (relaxCost e el).2) = false
            rw [hcv]
            exact pairLtB_irrefl _
        · left
          have h4 : vset acc.2 (nb.1, el) (relaxCost e el) (s, l) = some c := hc
          unfold vset at h4
          rw [if_neg hkk] at h4
          exact h4
    · next hbetter =>
      injection h with h2
      subst h2
      refine ⟨fun x hx => hx, fun k hk => hk, ?_, fun s l c hc => Or.inl hc⟩
      cases hv : acc.2 (nb.1, el) with
      | some best => exact ⟨el, by simp [hv]⟩
      | none =>
        exfalso
        apply hbetter
        rw [hv]

theorem expand_spec {e : Entry} :
    ∀ (adj : Adj) (acc acc2 : List Entry × Visited),
      expand e adj acc = some acc2 →
      (∀ x ∈ acc.1, x ∈ acc2.1) ∧
      (∀ k, acc.2 k ≠ none → acc2.2 k ≠ none) ∧
      (∀ p ∈ adj, ∃ el, acc2.2 (p.1, el) ≠ none) ∧
      (∀ s l c, acc2.2 (s, l) = some c → acc.2 (s, l) = some c ∨
        ∃ e2 ∈ acc2.1, e2.stn = s ∧ e2.lin = l ∧
          pairLtB c (e2.sw, e2.st) = false) := by
  intro adj
  induction adj with
  | nil =>
    intro acc acc2 h
    unfold expand at h
    injection h with h2
    subst h2
    exact ⟨fun x hx => hx, fun k hk => hk, by simp, fun s l c hc => Or.inl hc⟩
  | cons nb rest ih =>
    intro acc acc2 h
    unfold expand at h
    cases hr : relax e acc nb with
    | none => rw [hr] at h; exact absurd h (by simp)
    | some accm =>
      rw [hr] at h
      obtain ⟨r1, r2, ⟨el0, hel0⟩, r4⟩ := relax_spec hr
      obtain ⟨i1, i2, i3, i4⟩ := ih accm acc2 h
      refine ⟨fun x hx => i1 x (r1 x hx), fun k hk => i2 k (r2 k hk), ?_, ?_⟩
      · intro p hp
        rcases List.mem_cons.mp hp with rfl | hp2
        · exact ⟨el0, i2 _ hel0⟩
        · exact i3 p hp2
      · intro s l c hc
        rcases i4 s l c hc with hold | hfresh
        · rcases r4 s l c hold with hold2 | ⟨e2, he2, h1, h2, h3⟩
          · exact Or.inl hold2
          · exact Or.inr ⟨e2, i1 e2 he2, h1, h2, h3⟩
        · exact Or.inr hfresh

theorem seedPQ_inv (src : Station) (ls : Labels) :
    ∀ s l c, (seedPQ src ls).2 (s, l) = some c →
      ∃ e ∈ (seedPQ src ls).1, e.stn = s ∧ e.lin = l ∧
        pairLtB c (e.sw, e.st) = false := by
  suffices hgen : ∀ (acc : List Entry × Visited),
      (∀ s l c, acc.2 (s, l) = some c → ∃ e ∈ acc.1, e.stn = s ∧ e.lin = l ∧
        pairLtB c (e.sw, e.st) = false) →
      ∀ s l c, (ls.foldl (fun acc l =>
          (pqInsert (Entry.root 0 0 src l) acc.1, vset acc.2 (src, l) (0, 1)))
          acc).2 (s, l) = some c →
        ∃ e ∈ (ls.foldl (fun acc l =>
          (pqInsert (Entry.root 0 0 src l) acc.1, vset acc.2 (src, l) (0, 1)))
          acc).1, e.stn = s ∧ e.lin = l ∧ pairLtB c (e.sw, e.st) = false by
    exact hgen ([], fun _ => none) (fun s l c hc => absurd hc (by simp))
  induction ls with
  | nil => intro acc hacc; exact hacc
  | cons l0 rest ih =>
    intro acc hacc
    rw [List.foldl_cons]
    apply ih
    intro s l c hc
    by_cases hkk : (s, l) = (src, l0)
    · have hcv : c = (0, 1) := by
        have h4 : vset acc.2 (src, l0) (0, 1) (s, l) = some c := hc
        unfold vset at h4
        rw [if_pos hkk] at h4
        injection h4 with h5
        exact h5.symm
      refine ⟨Entry.root 0 0 src l0, self_mem_pqInsert _ _, ?_, ?_, ?_⟩
      · exact (congrArg Prod.fst hkk).symm
      · exact (congrArg Prod.snd hkk).symm
      · rw [hcv]; rfl
    · have h4 : vset acc.2 (src, l0) (0, 1) (s, l) = some c := hc
      unfold vset at h4
      rw [if_neg hkk] at h4
      obtain ⟨e, he, h1, h2, h3⟩ := hacc s l c h4
      exact ⟨e, mem_pqInsert_of_mem _ he, h1, h2, h3⟩

theorem seedPQ_fold_keeps (src : Station) (l : Line) :
    ∀ (ls : Labels) (acc : List Entry × Visited),
      acc.2 (src, l) = some (0, 1) →
      (ls.foldl (fun acc l =>
        (pqInsert (Entry.root 0 0 src l) acc.1, vset acc.2 (src, l) (0, 1)))
        acc).2 (src, l) = some (0, 1) := by
  intro ls
  induction ls with
  | nil => intro acc hacc; exact hacc
  | cons l0 rest ih =>
    intro acc hacc
    rw [List.foldl_cons]
    apply ih
    show vset acc.2 (src, l0) (0, 1) (src, l) = some (0, 1)
    unfold vset
    by_cases hkk : ((src, l) : Station × Line) = (src, l0)
    · rw [if_pos hkk]
    · rw [if_neg hkk]; exact hacc

theorem seedPQ_visited_gen (src : Station) (l : Line) :
    ∀ (ls : Labels) (acc : List Entry × Visited), l ∈ ls →
      (ls.foldl (fun acc l =>
        (pqInsert (Entry.root 0 0 src l) acc.1, vset acc.2 (src, l) (0, 1)))
        acc).2 (src, l) = some (0, 1) := by
  intro ls
  induction ls with
  | nil => intro acc h; simp at h
  | cons l0 rest ih =>
    intro acc h
    rw [List.foldl_cons]
    by_cases hl : l ∈ rest
    · exact ih _ hl
    · have hl0 : l = l0 := by
        rcases List.mem_cons.mp h with h2 | h2
        · exact h2
        · exact absurd h2 hl
      subst hl0
      apply seedPQ_fold_keeps
      show vset acc.2 (src, l) (0, 1) (src, l) = some (0, 1)
      unfold vset
      rw [if_pos rfl]

theorem seedPQ_visited (src : Station) (ls : Labels) (l : Line) (h : l ∈ ls) :
    (seedPQ src ls).2 (src, l) = some (0, 1) :=
  seedPQ_visited_gen src l ls ([], fun _ => none) h

theorem seedPQ_chainOk (g : Graph) (src : Station) (ls : Labels) :
    ∀ x ∈ (seedPQ src ls).1, ChainOk g src x := by
  intro x hx
  obtain ⟨l, rfl⟩ := mem_seedPQ hx
  show src = src
  rfl

/-- At loop exit every recorded state is a fully expanded non-destination
station. -/
def ClosedAt (v : Visited) (g : Graph) (dest : Station) : Prop :=
  ∀ s l c, v (s, l) = some c → s ≠ dest ∧ Closed v g s

theorem findLoop_nopath_closed (dest : Station) :
    ∀ (fuel : Nat) (pq : List Entry) (v : Visited) (g g2 : Graph),
      InvC4 dest pq v g →
      findLoop dest fuel pq v g = some (Out.nopath g2) →
      ∃ v2 : Visited, ClosedAt v2 g2 dest ∧ ∀ k, v k ≠ none → v2 k ≠ none := by
  intro fuel
  induction fuel with
  | zero => intro pq v g g2 _ h; simp [findLoop] at h
  | succ n ih =>
    intro pq v g g2 hinv h
    cases pq with
    | nil =>
      simp only [findLoop, Option.some.injEq] at h
      injection h with hg
      subst hg
      refine ⟨v, ?_, fun k hk => hk⟩
      intro s l c hc
      rcases hinv s l c hc with ⟨e, he, -⟩ | hcl
      · simp at he
      · exact hcl
    | cons e rest =>
      rw [findLoop] at h
      by_cases hst : staleB v e = true
      · rw [if_pos hst] at h
        refine ih rest v g g2 ?_ h
        intro s l c hc
        rcases hinv s l c hc with ⟨e2, he2, h1, h2, h3⟩ | hcl
        · rcases List.mem_cons.mp he2 with rfl | he3
          · exfalso
            unfold staleB at hst
            rw [h1, h2, hc] at hst
            simp [h3] at hst
          · exact Or.inl ⟨e2, he3, h1, h2, h3⟩
        · exact Or.inr hcl
      · rw [if_neg hst] at h
        by_cases hd : e.stn = dest
        · rw [if_pos hd] at h
          exact absurd h (by simp)
        · rw [if_neg hd] at h
          cases hexp : expand e (graphGetD g e.stn).1 (rest, v) with
          | none => rw [hexp] at h; exact absurd h (by simp)
          | some pv =>
            rw [hexp] at h
            obtain ⟨m1, m2, m3, m4⟩ := expand_spec _ _ _ hexp
            have hext := graphGetD_extends g e.stn
            have hinv2 : InvC4 dest pv.1 pv.2 (graphGetD g e.stn).2 := ?_
            case _ =>
              obtain ⟨v2, hv2cl, hv2mono⟩ :=
                ih pv.1 pv.2 (graphGetD g e.stn).2 g2 hinv2 h
              exact ⟨v2, hv2cl, fun k hk => hv2mono k (m2 k hk)⟩
            intro s l c hc
            rcases m4 s l c hc with hold | hfresh
            · by_cases hkey : ((s, l) : Station × Line) = (e.stn, e.lin)
              · right
                have hs : s = e.stn := congrArg Prod.fst hkey
                constructor
                · rw [hs]; exact hd
                · intro adj hadj p hp
                  rw [hs] at hadj
                  rw [graphGetD_self g e.stn] at hadj
                  injection hadj with hadj2
                  exact m3 p (hadj2 ▸ hp)
              · rcases hinv s l c hold with ⟨e2, he2, h1, h2, h3⟩ | ⟨hnd, hcl⟩
                · rcases List.mem_cons.mp he2 with rfl | he3
                  · exact absurd (by rw [← h1, ← h2]) hkey
                  · exact Or.inl ⟨e2, m1 e2 he3, h1, h2, h3⟩
                · exact Or.inr ⟨hnd, closed_mono_v m2 (closed_mono_g hext hcl)⟩
            · exact Or.inl hfresh

theorem chainOk_reach (g : Graph) (src : Station) :
    ∀ e : Entry, ChainOk g src e → Reach g src e.stn := by
  intro e
  induction e with
  | root sw st s l =>
    intro hc
    have hs : s = src := hc
    show Reach g src s
    rw [hs]
    exact Relation.ReflTransGen.refl
  | node sw st s l p ih =>
    rintro ⟨hp, lab, hlook, -⟩
    exact Relation.ReflTransGen.tail (ih hp) ⟨lab, hlook⟩

/-- Claim C4: for a well-formed graph and a source served by at least one
line, a completed query with both endpoints in the index returns the
None-quadruple exactly when the destination is not reachable from the
source in the graph. -/
theorem c4_notfound_iff_unreachable (g : Graph) (sl : SL) (src dest : Station)
    (fuel : Nat) (r : Option (List Station × Nat × Nat × List Line))
    (g2 : Graph) (sl2 : SL) (hwf : WFAdj g) (ls0 : Labels)
    (hsrc : alook sl src = some ls0) (hne : ls0 ≠ [])
    (hdest : (alook sl dest).isSome = true)
    (h : find_min_switch_path g sl src dest fuel =
      some (PyResult.ret r g2 sl2)) :
    r = none ↔ ¬ Reach g src dest := by
  unfold find_min_switch_path at h
  have hguard : ((alook sl src).isNone || (alook sl dest).isNone) = false := by
    rw [hsrc]
    cases hx : alook sl dest with
    | none => rw [hx] at hdest; simp at hdest
    | some ls => simp
  rw [if_neg (by simp [hguard])] at h
  have hs1 : (slGetD sl src).1 = ls0 := by
    unfold slGetD
    rw [hsrc]
  cases hloop : findLoop dest fuel (seedPQ src (slGetD sl src).1).1
      (seedPQ src (slGetD sl src).1).2 g with
  | none => rw [hloop] at h; exact absurd h (by simp [wrapOut])
  | some o =>
    rw [hloop] at h
    cases o with
    | crash g3 => simp [wrapOut] at h
    | found e g3 =>
      simp only [wrapOut, Option.some.injEq] at h
      injection h with hr hg hsl
      constructor
      · intro hrn
        rw [← hr] at hrn
        exact absurd hrn (by simp)
      · intro hnr
        exfalso
        apply hnr
        have hfound := findLoop_found_valid dest src fuel _ _ g e g3 hwf
          (seedPQ_chainOk g src (slGetD sl src).1) hloop
        have hext : ExtendsEmpty g g3 :=
          findLoop_extends dest fuel _ _ g (Out.found e g3) hloop
        have hchain : ChainOk g src e := chainOk_rev hext src e hfound.1
        have hre := chainOk_reach g src e hchain
        rw [hfound.2] at hre
        exact hre
    | nopath g3 =>
      simp only [wrapOut, Option.some.injEq] at h
      injection h with hr hg hsl
      constructor
      · intro _
        intro hreach
        have hinv : InvC4 dest (seedPQ src (slGetD sl src).1).1
            (seedPQ src (slGetD sl src).1).2 g :=
          fun s l c hc => Or.inl (seedPQ_inv src _ s l c hc)
        obtain ⟨v2, hcl, hmono⟩ :=
          findLoop_nopath_closed dest fuel _ _ g g3 hinv hloop
        have hext : ExtendsEmpty g g3 :=
          findLoop_extends dest fuel _ _ g (Out.nopath g3) hloop
        obtain ⟨l0, hl0⟩ := List.exists_mem_of_ne_nil ls0 hne
        have hsrcv : (seedPQ src (slGetD sl src).1).2 (src, l0) = some (0, 1) := by
          rw [hs1]
          exact seedPQ_visited src ls0 l0 hl0
        have hsrc2 : v2 (src, l0) ≠ none := hmono _ (by rw [hsrcv]; simp)
        have hS : ∀ t, Reach g src t → ∃ l c, v2 (t, l) = some c := by
          intro t ht
          induction ht with
          | refl =>
            cases hv : v2 (src, l0) with
            | none => exact absurd hv hsrc2
            | some c0 => exact ⟨l0, c0, hv⟩
          | tail hr0 hstep ih2 =>
            rename_i b t2
            obtain ⟨lb, cb, hvb⟩ := ih2
            obtain ⟨hnd, hclb⟩ := hcl _ _ _ hvb
            obtain ⟨lab, hlab⟩ := hstep
            unfold alook2 at hlab
            cases hadjb : alook g b with
            | none => rw [hadjb] at hlab; exact absurd hlab (by simp)
            | some adj =>
              rw [hadjb] at hlab
              have halift : alook g3 b = some adj :=
                (extendsEmpty_lookups hext).1 b adj hadjb
              have hmem : ((t2, lab) : Station × Labels) ∈ adj := mem_of_alook hlab
              obtain ⟨el, hel⟩ := hclb adj halift (t2, lab) hmem
              cases hv : v2 (t2, el) with
              | none => exact absurd hv hel
              | some c1 => exact ⟨el, c1, hv⟩
        obtain ⟨ld, cd, hvd⟩ := hS dest hreach
        exact absurd rfl (hcl _ _ _ hvd).1
      · intro _
        exact hr.symm

/-- Witness for `c4_notfound_iff_unreachable`: the two-island query
A → C on `netC` (known endpoints, disconnected islands). -/
theorem c4_notfound_iff_unreachable_witness :
    ((none : Option (List Station × Nat × Nat × List Line)) = none ↔
      ¬ Reach gC "A" "C") :=
  c4_notfound_iff_unreachable gC slC "A" "C" 20 none gC slC
    (by unfold WFAdj; decide) ["L1"] (by decide) (by decide) (by decide)
    (by decide)


/-! ## Determinism up to set-iteration order (C9)

The Python implementation iterates over `set` objects of line names when
seeding the frontier, and consults the label sets of edges only through
membership tests and `min`.  The development below shows the result of
`find_min_switch_path` does not depend on the order in which those sets
are materialised. -/

theorem uval_trans {a b c : UInt32} (h1 : a < b) (h2 : b < c) : a < c := by
  have n1 : a.toNat < b.toNat := h1
  have n2 : b.toNat < c.toNat := h2
  show a.toNat < c.toNat
  omega

theorem uval_eq {a b : UInt32} (h1 : ¬ a < b) (h2 : ¬ b < a) : a = b := by
  have n1 : ¬ a.toNat < b.toNat := h1
  have n2 : ¬ b.toNat < a.toNat := h2
  exact UInt32.toNat.inj (by omega)

theorem uval_irrefl (a : UInt32) : ¬ a < a := by
  have : ¬ a.toNat < a.toNat := by omega
  exact this

theorem strLtAux_irrefl : ∀ as : List Char, strLtAux as as = false := by
  intro as
  induction as with
  | nil => rfl
  | cons a t ih => simp [strLtAux, uval_irrefl a.val, ih]

theorem strLtAux_trichotomy : ∀ as bs : List Char,
    strLtAux as bs = true ∨ strLtAux bs as = true ∨ as = bs := by
  intro as
  induction as with
  | nil =>
    intro bs
    cases bs with
    | nil => exact Or.inr (Or.inr rfl)
    | cons b t => exact Or.inl rfl
  | cons a as2 ih =>
    intro bs
    cases bs with
    | nil => exact Or.inr (Or.inl rfl)
    | cons b bs2 =>
      by_cases h1 : a.val < b.val
      · left
        simp [strLtAux, h1]
      · by_cases h2 : b.val < a.val
        · right; left
          simp [strLtAux, h2]
        · have hab : a = b := Char.eq_of_val_eq (uval_eq h1 h2)
          subst hab
          rcases ih bs2 with h | h | h
          · left
            simp [strLtAux, uval_irrefl a.val, h]
          · right; left
            simp [strLtAux, uval_irrefl a.val, h]
          · right; right
            rw [h]

theorem strLtAux_trans : ∀ as bs cs : List Char,
    strLtAux as bs = true → strLtAux bs cs = true → strLtAux as cs = true := by
  intro as
  induction as with
  | nil =>
    intro bs cs h1 h2
    cases bs with
    | nil => simp [strLtAux] at h1
    | cons b bs2 =>
      cases cs with
      | nil => simp [strLtAux] at h2
      | cons c cs2 => rfl
  | cons a as2 ih =>
    intro bs cs h1 h2
    cases bs with
    | nil => simp [strLtAux] at h1
    | cons b bs2 =>
      cases cs with
      | nil => simp [strLtAux] at h2
      | cons c cs2 =>
        by_cases hab : a.val < b.val
        · by_cases hbc : b.val < c.val
          · have hac : a.val < c.val := uval_trans hab hbc
            simp [strLtAux, hac]
          · by_cases hcb : c.val < b.val
            · simp [strLtAux, hbc, hcb] at h2
            · have hbc2 : b.val = c.val := uval_eq hbc hcb
              have hac : a.val < c.val := hbc2 ▸ hab
              simp [strLtAux, hac]
        · by_cases hba : b.val < a.val
          · simp [strLtAux, hab, hba] at h1
          · have hab2 : a.val = b.val := uval_eq hab hba
            by_cases hbc : b.val < c.val
            · have hac : a.val < c.val := hab2 ▸ hbc
              simp [strLtAux, hac]
            · by_cases hcb : c.val < b.val
              · simp [strLtAux, hbc, hcb] at h2
              · have hbc2 : b.val = c.val := uval_eq hbc hcb
                have hac1 : ¬ a.val < c.val := by rw [hab2, hbc2]; exact uval_irrefl c.val
                have hca1 : ¬ c.val < a.val := by rw [hab2, hbc2]; exact uval_irrefl c.val
                simp only [strLtAux, hab, hba, if_neg hab, if_neg hba] at h1
                simp only [strLtAux, hbc, hcb, if_neg hbc, if_neg hcb] at h2
                simp only [strLtAux, if_neg hac1, if_neg hca1]
                exact ih bs2 cs2 h1 h2

theorem string_eq_of_data_eq {s t : String} (h : s.data = t.data) : s = t := by
  cases s with
  | mk d1 =>
    cases t with
    | mk d2 =>
      have h2 : d1 = d2 := h
      rw [h2]

theorem strLtB_irrefl (s : String) : strLtB s s = false :=
  strLtAux_irrefl s.data

theorem strLtB_trichotomy (s t : String) :
    strLtB s t = true ∨ strLtB t s = true ∨ s = t := by
  rcases strLtAux_trichotomy s.data t.data with h | h | h
  · exact Or.inl h
  · exact Or.inr (Or.inl h)
  · exact Or.inr (Or.inr (string_eq_of_data_eq h))

theorem strLtB_trans {s t u : String} (h1 : strLtB s t = true)
    (h2 : strLtB t u = true) : strLtB s u = true :=
  strLtAux_trans s.data t.data u.data h1 h2

theorem strLtB_asymm {s t : String} (h : strLtB s t = true) :
    strLtB t s = false := by
  rw [Bool.eq_false_iff]
  intro h2
  have h3 := strLtB_trans h h2
  rw [strLtB_irrefl s] at h3
  exact absurd h3 (by simp)

theorem strLtB_antisymm {s t : String} (h1 : strLtB s t = false)
    (h2 : strLtB t s = false) : s = t := by
  rcases strLtB_trichotomy s t with h | h | h
  · rw [h1] at h; exact absurd h (by simp)
  · rw [h2] at h; exact absurd h (by simp)
  · exact h

theorem strMin_comm (a b : String) : strMin a b = strMin b a := by
  unfold strMin
  rcases strLtB_trichotomy a b with h | h | h
  · rw [if_neg (by rw [strLtB_asymm h]; simp), if_pos h]
  · rw [if_pos h, if_neg (by rw [strLtB_asymm h]; simp)]
  · subst h
    rfl

/-- Le-transitivity for the string order expressed on `strLtB`. -/
theorem strLe_trans {a b c : String} (h1 : strLtB b a = false)
    (h2 : strLtB c b = false) : strLtB c a = false := by
  rw [Bool.eq_false_iff]
  intro hzx
  rcases strLtB_trichotomy a b with h3 | h3 | h3
  · have h4 := strLtB_trans hzx h3
    rw [h2] at h4
    exact absurd h4 (by simp)
  · rw [h1] at h3
    exact absurd h3 (by simp)
  · subst h3
    rw [h2] at hzx
    exact absurd hzx (by simp)

theorem strMin_lb (x y0 : String) :
    strLtB x (strMin x y0) = false ∧ strLtB y0 (strMin x y0) = false := by
  unfold strMin
  by_cases hc : strLtB y0 x = true
  · simp only [hc, if_true]
    exact ⟨strLtB_asymm hc, strLtB_irrefl y0⟩
  · have hcf : strLtB y0 x = false := by rw [Bool.eq_false_iff]; exact hc
    rw [if_neg (by rw [hcf]; simp)]
    exact ⟨strLtB_irrefl x, hcf⟩

theorem foldl_strMin_lb : ∀ (ys : List String) (x : String),
    strLtB x (List.foldl strMin x ys) = false ∧
    ∀ z ∈ ys, strLtB z (List.foldl strMin x ys) = false := by
  intro ys
  induction ys with
  | nil => intro x; exact ⟨strLtB_irrefl x, by simp⟩
  | cons y0 ys2 ih =>
    intro x
    rw [List.foldl_cons]
    obtain ⟨hA, hB⟩ := ih (strMin x y0)
    obtain ⟨hx, hy0⟩ := strMin_lb x y0
    refine ⟨strLe_trans hA hx, ?_⟩
    intro z hz
    rcases List.mem_cons.mp hz with rfl | hz2
    · exact strLe_trans hA hy0
    · exact hB z hz2

/-- `pymin` returns a lower bound of the list. -/
theorem pymin_le {ls : Labels} {m : Line} (h : pymin ls = some m) :
    ∀ y ∈ ls, strLtB y m = false := by
  cases ls with
  | nil => simp [pymin] at h
  | cons x xs =>
    simp only [pymin, Option.some.injEq] at h
    subst h
    intro y hy
    obtain ⟨h1, h2⟩ := foldl_strMin_lb xs x
    rcases List.mem_cons.mp hy with rfl | hy2
    · exact h1
    · exact h2 y hy2

theorem pymin_perm {ls1 ls2 : Labels} (h : ls1.Perm ls2) :
    pymin ls1 = pymin ls2 := by
  cases ls1 with
  | nil =>
    have h2 : ls2 = [] := h.symm.eq_nil
    rw [h2]
  | cons x xs =>
    cases ls2 with
    | nil => exact absurd h.eq_nil (by simp)
    | cons y ys =>
      cases h1 : pymin (x :: xs) with
      | none => simp [pymin] at h1
      | some m1 =>
        cases h2 : pymin (y :: ys) with
        | none => simp [pymin] at h2
        | some m2 =>
          have hm1 : m1 ∈ (x :: xs) := pymin_mem h1
          have hm2 : m2 ∈ (y :: ys) := pymin_mem h2
          have hle1 := pymin_le h1 m2 (h.mem_iff.mpr hm2)
          have hle2 := pymin_le h2 m1 (h.mem_iff.mp hm1)
          rw [strLtB_antisymm hle2 hle1]

theorem entryLe_iff (e1 e2 : Entry) : entryLe e1 e2 = true ↔
    (e1.sw < e2.sw ∨ (e1.sw = e2.sw ∧ (e1.st < e2.st ∨ (e1.st = e2.st ∧
      (strLtB e1.stn e2.stn = true ∨ (e1.stn = e2.stn ∧
        strLtB e2.lin e1.lin = false)))))) := by
  unfold entryLe strLeB
  simp [Bool.or_eq_true, Bool.and_eq_true, Nat.blt_eq, beq_iff_eq,
    Bool.not_eq_true']

theorem entryLe_total (e1 e2 : Entry) :
    entryLe e1 e2 = true ∨ entryLe e2 e1 = true := by
  rw [entryLe_iff, entryLe_iff]
  rcases Nat.lt_trichotomy e1.sw e2.sw with h | h | h
  · exact Or.inl (Or.inl h)
  · rcases Nat.lt_trichotomy e1.st e2.st with h2 | h2 | h2
    · exact Or.inl (Or.inr ⟨h, Or.inl h2⟩)
    · rcases strLtB_trichotomy e1.stn e2.stn with h3 | h3 | h3
      · exact Or.inl (Or.inr ⟨h, Or.inr ⟨h2, Or.inl h3⟩⟩)
      · exact Or.inr (Or.inr ⟨h.symm, Or.inr ⟨h2.symm, Or.inl h3⟩⟩)
      · by_cases h4 : strLtB e2.lin e1.lin = true
        · right
          refine Or.inr ⟨h.symm, Or.inr ⟨h2.symm, Or.inr ⟨h3.symm, ?_⟩⟩⟩
          exact strLtB_asymm h4
        · left
          refine Or.inr ⟨h, Or.inr ⟨h2, Or.inr ⟨h3, ?_⟩⟩⟩
          rw [Bool.eq_false_iff]
          exact h4
    · exact Or.inr (Or.inr ⟨h.symm, Or.inl h2⟩)
  · exact Or.inr (Or.inl h)

theorem entryLe_trans {e1 e2 e3 : Entry} (h1 : entryLe e1 e2 = true)
    (h2 : entryLe e2 e3 = true) : entryLe e1 e3 = true := by
  rw [entryLe_iff] at h1 h2 ⊢
  rcases h1 with h1 | ⟨hsw1, h1⟩
  · rcases h2 with h2 | ⟨hsw2, h2⟩
    · exact Or.inl (Nat.lt_trans h1 h2)
    · exact Or.inl (hsw2 ▸ h1)
  · rcases h2 with h2 | ⟨hsw2, h2⟩
    · exact Or.inl (hsw1 ▸ h2)
    · refine Or.inr ⟨hsw1.trans hsw2, ?_⟩
      rcases h1 with h1 | ⟨hst1, h1⟩
      · rcases h2 with h2 | ⟨hst2, h2⟩
        · exact Or.inl (Nat.lt_trans h1 h2)
        · exact Or.inl (hst2 ▸ h1)
      · rcases h2 with h2 | ⟨hst2, h2⟩
        · exact Or.inl (hst1 ▸ h2)
        · refine Or.inr ⟨hst1.trans hst2, ?_⟩
          rcases h1 with h1 | ⟨hstn1, h1⟩
          · rcases h2 with h2 | ⟨hstn2, h2⟩
            · exact Or.inl (strLtB_trans h1 h2)
            · exact Or.inl (hstn2 ▸ h1)
          · rcases h2 with h2 | ⟨hstn2, h2⟩
            · exact Or.inl (hstn1 ▸ h2)
            · refine Or.inr ⟨hstn1.trans hstn2, ?_⟩
              exact strLe_trans h1 h2

theorem entryLe_antisymm_root {src : Station} {l1 l2 : Line}
    (h1 : entryLe (Entry.root 0 0 src l1) (Entry.root 0 0 src l2) = true)
    (h2 : entryLe (Entry.root 0 0 src l2) (Entry.root 0 0 src l1) = true) :
    Entry.root 0 0 src l1 = Entry.root 0 0 src l2 := by
  rw [entryLe_iff] at h1 h2
  have hl : l1 = l2 := by
    rcases h1 with h1 | ⟨-, h1⟩
    · exact absurd h1 (by simp [Entry.sw])
    · rcases h1 with h1 | ⟨-, h1⟩
      · exact absurd h1 (by simp [Entry.st])
      · rcases h1 with h1 | ⟨-, h1⟩
        · rw [show (Entry.root 0 0 src l1).stn = src from rfl,
            show (Entry.root 0 0 src l2).stn = src from rfl,
            strLtB_irrefl src] at h1
          exact absurd h1 (by simp)
        · rcases h2 with h2 | ⟨-, h2⟩
          · exact absurd h2 (by simp [Entry.sw])
          · rcases h2 with h2 | ⟨-, h2⟩
            · exact absurd h2 (by simp [Entry.st])
            · rcases h2 with h2 | ⟨-, h2⟩
              · rw [show (Entry.root 0 0 src l2).stn = src from rfl,
                  show (Entry.root 0 0 src l1).stn = src from rfl,
                  strLtB_irrefl src] at h2
                exact absurd h2 (by simp)
              · exact strLtB_antisymm h2 h1
  rw [hl]

theorem pqInsert_comm {a b : Entry}
    (hanti : entryLe a b = true → entryLe b a = true → a = b) :
    ∀ l, pqInsert a (pqInsert b l) = pqInsert b (pqInsert a l) := by
  intro l
  induction l with
  | nil =>
    by_cases hab : entryLe a b = true
    · by_cases hba : entryLe b a = true
      · rw [hanti hab hba]
      · simp [pqInsert, hab, hba]
    · have hba : entryLe b a = true := (entryLe_total a b).resolve_left hab
      simp [pqInsert, hab, hba]
  | cons x xs ih =>
    by_cases hax : entryLe a x = true <;> by_cases hbx : entryLe b x = true
    · by_cases hab : entryLe a b = true
      · by_cases hba : entryLe b a = true
        · rw [hanti hab hba]
        · simp [pqInsert, hax, hbx, hab, hba]
      · have hba : entryLe b a = true := (entryLe_total a b).resolve_left hab
        simp [pqInsert, hax, hbx, hab, hba]
    · have hba : ¬ entryLe b a = true := fun hba => hbx (entryLe_trans hba hax)
      have hab : entryLe a b = true := (entryLe_total a b).resolve_right hba
      simp [pqInsert, hax, hbx, hab, hba]
    · have hab : ¬ entryLe a b = true := fun hab => hax (entryLe_trans hab hbx)
      have hba : entryLe b a = true := (entryLe_total a b).resolve_left hab
      simp [pqInsert, hax, hbx, hab, hba]
    · simp [pqInsert, hax, hbx, ih]

theorem vset_comm {v : Visited} {k1 k2 : Station × Line} {c1 c2 : Nat × Nat}
    (h : k1 = k2 → c1 = c2) :
    vset (vset v k1 c1) k2 c2 = vset (vset v k2 c2) k1 c1 := by
  funext k
  show (if k = k2 then some c2 else if k = k1 then some c1 else v k) =
    (if k = k1 then some c1 else if k = k2 then some c2 else v k)
  by_cases h1 : k = k1
  · by_cases h2 : k = k2
    · have e1 : (if k = k2 then some c2 else if k = k1 then some c1 else v k) =
          some c2 := if_pos h2
      have e2 : (if k = k1 then some c1 else if k = k2 then some c2 else v k) =
          some c1 := if_pos h1
      rw [e1, e2]
      exact congrArg some (h (h1.symm.trans h2)).symm
    · have e1 : (if k = k2 then some c2 else if k = k1 then some c1 else v k) =
          some c1 := by rw [if_neg h2, if_pos h1]
      have e2 : (if k = k1 then some c1 else if k = k2 then some c2 else v k) =
          some c1 := if_pos h1
      rw [e1, e2]
  · by_cases h2 : k = k2
    · have e1 : (if k = k2 then some c2 else if k = k1 then some c1 else v k) =
          some c2 := if_pos h2
      have e2 : (if k = k1 then some c1 else if k = k2 then some c2 else v k) =
          some c2 := by rw [if_neg h1, if_pos h2]
      rw [e1, e2]
    · have e1 : (if k = k2 then some c2 else if k = k1 then some c1 else v k) =
          v k := by rw [if_neg h2, if_neg h1]
      have e2 : (if k = k1 then some c1 else if k = k2 then some c2 else v k) =
          v k := by rw [if_neg h1, if_neg h2]
      rw [e1, e2]

theorem seedPQ_perm {src : Station} {ls1 ls2 : Labels} (h : ls1.Perm ls2) :
    seedPQ src ls1 = seedPQ src ls2 := by
  unfold seedPQ
  refine h.foldl_eq' ?_ _
  intro l1 hl1 l2 hl2 z
  have hpq : pqInsert (Entry.root 0 0 src l2) (pqInsert (Entry.root 0 0 src l1) z.1) =
      pqInsert (Entry.root 0 0 src l1) (pqInsert (Entry.root 0 0 src l2) z.1) :=
    pqInsert_comm entryLe_antisymm_root z.1
  have hv : vset (vset z.2 (src, l1) (0, 1)) (src, l2) (0, 1) =
      vset (vset z.2 (src, l2) (0, 1)) (src, l1) (0, 1) :=
    vset_comm (fun _ => rfl)
  show (pqInsert (Entry.root 0 0 src l2) (pqInsert (Entry.root 0 0 src l1) z.1),
      vset (vset z.2 (src, l1) (0, 1)) (src, l2) (0, 1)) =
    (pqInsert (Entry.root 0 0 src l1) (pqInsert (Entry.root 0 0 src l2) z.1),
      vset (vset z.2 (src, l2) (0, 1)) (src, l1) (0, 1))
  rw [hpq, hv]

/-- Pointwise relation between dict entries: same key, value sets equal up
to iteration order. -/
def LabPerm (p q : Station × Labels) : Prop := p.1 = q.1 ∧ p.2.Perm q.2

def AdjPerm (a1 a2 : Adj) : Prop := List.Forall₂ LabPerm a1 a2

def SLPerm (sl1 sl2 : SL) : Prop := List.Forall₂ LabPerm sl1 sl2

def GraphPerm (g1 g2 : Graph) : Prop :=
  List.Forall₂ (fun p q => p.1 = q.1 ∧ AdjPerm p.2 q.2) g1 g2

theorem alook_rel {α : Type} {R : α → α → Prop}
    {l1 l2 : List (String × α)}
    (h : List.Forall₂ (fun p q => p.1 = q.1 ∧ R p.2 q.2) l1 l2) (k : String) :
    (alook l1 k = none ∧ alook l2 k = none) ∨
    ∃ v1 v2, alook l1 k = some v1 ∧ alook l2 k = some v2 ∧ R v1 v2 := by
  induction h with
  | nil => exact Or.inl ⟨rfl, rfl⟩
  | @cons p q t1 t2 hpq hrest ih =>
    obtain ⟨k1, v1⟩ := p
    obtain ⟨k2, v2⟩ := q
    obtain ⟨hk, hR⟩ := hpq
    have hk12 : k1 = k2 := hk
    by_cases hkk : k1 = k
    · right
      refine ⟨v1, v2, ?_, ?_, hR⟩
      · simp [alook, hkk]
      · simp [alook, hk12.symm.trans hkk]
    · have hkk2 : ¬ k2 = k := fun hc => hkk (hk12.trans hc)
      rcases ih with ⟨ha, hb⟩ | ⟨w1, w2, ha, hb, hRw⟩
      · left
        constructor
        · simp [alook, hkk, ha]
        · simp [alook, hkk2, hb]
      · right
        refine ⟨w1, w2, ?_, ?_, hRw⟩
        · simp [alook, hkk, ha]
        · simp [alook, hkk2, hb]

theorem graphGetD_rel {g1 g2 : Graph} (h : GraphPerm g1 g2) (s : Station) :
    AdjPerm (graphGetD g1 s).1 (graphGetD g2 s).1 ∧
    GraphPerm (graphGetD g1 s).2 (graphGetD g2 s).2 := by
  unfold graphGetD
  rcases alook_rel h s with ⟨h1, h2⟩ | ⟨a1, a2, h1, h2, hR⟩
  · rw [h1, h2]
    constructor
    · exact List.Forall₂.nil
    · exact List.rel_append h
        (List.Forall₂.cons ⟨rfl, List.Forall₂.nil⟩ List.Forall₂.nil)
  · rw [h1, h2]
    exact ⟨hR, h⟩

theorem relax_perm {e : Entry} {acc : List Entry × Visited} {n : Station}
    {ls1 ls2 : Labels} (hp : ls1.Perm ls2) :
    relax e acc (n, ls1) = relax e acc (n, ls2) := by
  unfold relax
  have hif : (if e.lin ∈ ls1 then some e.lin else pymin ls1) =
      (if e.lin ∈ ls2 then some e.lin else pymin ls2) :=
    if_congr hp.mem_iff rfl (pymin_perm hp)
  rw [hif]

theorem expand_perm {e : Entry} :
    ∀ {adj1 adj2 : Adj}, AdjPerm adj1 adj2 →
      ∀ acc, expand e adj1 acc = expand e adj2 acc := by
  intro adj1 adj2 h
  induction h with
  | nil => intro acc; rfl
  | @cons p q t1 t2 hpq hrest ih =>
    intro acc
    obtain ⟨k1, v1⟩ := p
    obtain ⟨k2, v2⟩ := q
    obtain ⟨hk, hR⟩ := hpq
    have hk12 : k1 = k2 := hk
    subst hk12
    unfold expand
    rw [show relax e acc (k1, v1) = relax e acc (k1, v2) from relax_perm hR]
    cases relax e acc (k1, v2) with
    | none => rfl
    | some accm => exact ih accm

/-- Relation between loop outcomes of the two runs: identical outcome
shape and terminal entry, graphs related by `GraphPerm`. -/
def OutRel : Option Out → Option Out → Prop
  | none, none => True
  | some (Out.found e1 ga), some (Out.found e2 gb) => e1 = e2 ∧ GraphPerm ga gb
  | some (Out.nopath ga), some (Out.nopath gb) => GraphPerm ga gb
  | some (Out.crash ga), some (Out.crash gb) => GraphPerm ga gb
  | _, _ => False

theorem findLoop_perm (dest : Station) :
    ∀ (fuel : Nat) (pq : List Entry) (v : Visited) {g1 g2 : Graph},
      GraphPerm g1 g2 →
      OutRel (findLoop dest fuel pq v g1) (findLoop dest fuel pq v g2) := by
  intro fuel
  induction fuel with
  | zero => intro pq v g1 g2 h; exact trivial
  | succ n ih =>
    intro pq v g1 g2 h
    cases pq with
    | nil => exact h
    | cons e rest =>
      show OutRel (findLoop dest (n + 1) (e :: rest) v g1)
        (findLoop dest (n + 1) (e :: rest) v g2)
      rw [findLoop, findLoop]
      by_cases hst : staleB v e = true
      · rw [if_pos hst, if_pos hst]
        exact ih rest v h
      · rw [if_neg hst, if_neg hst]
        by_cases hd : e.stn = dest
        · rw [if_pos hd, if_pos hd]
          exact ⟨rfl, h⟩
        · rw [if_neg hd, if_neg hd]
          obtain ⟨hadj, hg2⟩ := graphGetD_rel h e.stn
          rw [show expand e (graphGetD g1 e.stn).1 (rest, v) =
              expand e (graphGetD g2 e.stn).1 (rest, v) from expand_perm hadj _]
          cases hexp : expand e (graphGetD g2 e.stn).1 (rest, v) with
          | none => exact hg2
          | some pv => exact ih pv.1 pv.2 hg2

/-- Relation on the caller-visible results of the two runs: identical
returned quadruple (or both raising), dictionaries related by the
iteration-order relations. -/
def PyRel : PyResult → PyResult → Prop
  | .ret r1 ga sla, .ret r2 gb slb => r1 = r2 ∧ GraphPerm ga gb ∧ SLPerm sla slb
  | .exn ga sla, .exn gb slb => GraphPerm ga gb ∧ SLPerm sla slb
  | .ret _ _ _, .exn _ _ => False
  | .exn _ _, .ret _ _ _ => False

def OptPyRel : Option PyResult → Option PyResult → Prop
  | none, none => True
  | some a, some b => PyRel a b
  | none, some _ => False
  | some _, none => False

theorem wrapOut_rel {o1 o2 : Option Out} {sla slb : SL} (ho : OutRel o1 o2)
    (hsl : SLPerm sla slb) : OptPyRel (wrapOut sla o1) (wrapOut slb o2) := by
  cases o1 with
  | none =>
    cases o2 with
    | none => exact trivial
    | some b => cases b <;> exact ho.elim
  | some a =>
    cases o2 with
    | none => cases a <;> exact ho.elim
    | some b =>
      cases a with
      | found e1 ga =>
        cases b with
        | found e2 gb =>
          obtain ⟨he, hgr⟩ := ho
          subst he
          exact ⟨rfl, hgr, hsl⟩
        | nopath gb => exact ho.elim
        | crash gb => exact ho.elim
      | nopath ga =>
        cases b with
        | found e2 gb => exact ho.elim
        | nopath gb => exact ⟨rfl, ho, hsl⟩
        | crash gb => exact ho.elim
      | crash ga =>
        cases b with
        | found e2 gb => exact ho.elim
        | nopath gb => exact ho.elim
        | crash gb => exact ⟨ho, hsl⟩

/-- Claim C9: `find_min_switch_path` is deterministic with respect to the
iteration order of the Python `set` objects it consumes — the per-station
line sets of the index (iterated when seeding the frontier) and the label
sets of edges (consulted through membership and `min`).  Any two runs on
inputs that differ only in the stored order of those sets return the
identical result quadruple. -/
theorem c9_result_independent_of_set_order (g1 g2 : Graph) (sl1 sl2 : SL)
    (src dest : Station) (fuel : Nat) (hg : GraphPerm g1 g2)
    (hsl : SLPerm sl1 sl2) :
    OptPyRel (find_min_switch_path g1 sl1 src dest fuel)
      (find_min_switch_path g2 sl2 src dest fuel) := by
  unfold find_min_switch_path
  have hsrc := alook_rel hsl src
  have hdest := alook_rel hsl dest
  have h1 : (alook sl1 src).isNone = (alook sl2 src).isNone := by
    rcases hsrc with ⟨ha, hb⟩ | ⟨v1, v2, ha, hb, hR⟩ <;> simp [ha, hb]
  have h2 : (alook sl1 dest).isNone = (alook sl2 dest).isNone := by
    rcases hdest with ⟨ha, hb⟩ | ⟨v1, v2, ha, hb, hR⟩ <;> simp [ha, hb]
  by_cases hcond : ((alook sl1 src).isNone || (alook sl1 dest).isNone) = true
  · rw [if_pos hcond, if_pos (by rw [← h1, ← h2]; exact hcond)]
    exact ⟨rfl, hg, hsl⟩
  · rw [if_neg hcond, if_neg (by rw [← h1, ← h2]; exact hcond)]
    rcases hsrc with ⟨ha, hb⟩ | ⟨v1, v2, ha, hb, hR⟩
    · exfalso
      apply hcond
      rw [ha]
      rfl
    · have hsg1 : slGetD sl1 src = (v1, sl1) := by unfold slGetD; rw [ha]
      have hsg2 : slGetD sl2 src = (v2, sl2) := by unfold slGetD; rw [hb]
      rw [hsg1, hsg2]
      rw [show seedPQ src v1 = seedPQ src v2 from seedPQ_perm hR]
      exact wrapOut_rel (findLoop_perm dest fuel _ _ hg) hsl

/-- `netA`'s graph with the shared labels of the X–Y edge stored in the
other order. -/
def gAp : Graph :=
  [("X", [("Y", ["B", "A"]), ("S", ["C"])]),
   ("Y", [("X", ["B", "A"]), ("Z", ["B"])]),
   ("Z", [("Y", ["B"])]),
   ("S", [("X", ["C"])])]

/-- `netA`'s station-lines index with every line set stored in reversed
order. -/
def slAp : SL :=
  [("X", ["C", "B", "A"]), ("Y", ["B", "A"]), ("Z", ["B"]), ("S", ["C"])]

/-- Witness for `c9_result_independent_of_set_order`: the S → Z query on
`netA` against the same network with all set orders reversed. -/
theorem c9_result_independent_of_set_order_witness :
    OptPyRel (find_min_switch_path gA slA "S" "Z" 20)
      (find_min_switch_path gAp slAp "S" "Z" 20) :=
  c9_result_independent_of_set_order gA gAp slA slAp "S" "Z" 20
    (by
      refine List.Forall₂.cons ⟨rfl, ?_⟩ ?_
      · exact List.Forall₂.cons ⟨rfl, by decide⟩
          (List.Forall₂.cons ⟨rfl, by decide⟩ List.Forall₂.nil)
      refine List.Forall₂.cons ⟨rfl, ?_⟩ ?_
      · exact List.Forall₂.cons ⟨rfl, by decide⟩
          (List.Forall₂.cons ⟨rfl, by decide⟩ List.Forall₂.nil)
      refine List.Forall₂.cons ⟨rfl, ?_⟩ ?_
      · exact List.Forall₂.cons ⟨rfl, by decide⟩ List.Forall₂.nil
      refine List.Forall₂.cons ⟨rfl, ?_⟩ List.Forall₂.nil
      exact List.Forall₂.cons ⟨rfl, by decide⟩ List.Forall₂.nil)
    (by
      refine List.Forall₂.cons ⟨rfl, by decide⟩ ?_
      refine List.Forall₂.cons ⟨rfl, by decide⟩ ?_
      refine List.Forall₂.cons ⟨rfl, by decide⟩ ?_
      exact List.Forall₂.cons ⟨rfl, by decide⟩ List.Forall₂.nil)

/-! ## Termination of the search loop

The `while pq:` loop always terminates: every push strictly lowers the
`visited` cost recorded at its key, the keys that can ever be pushed come
from the finite set of (adjacency neighbour, label) pairs of the graph, and
an iteration that pushes nothing shortens the frontier.  The measure is the
vector of `visited` values over that finite key list, ordered
lexicographically (with the missing value as top), paired with the frontier
length.  Hence `some` fuel always completes the run, so the fuel-completion
hypotheses appearing in the other theorems are satisfiable on every
input. -/

theorem pairLtB_iff (a b : Nat × Nat) :
    pairLtB a b = true ↔ (a.1 < b.1 ∨ (a.1 = b.1 ∧ a.2 < b.2)) := by
  unfold pairLtB
  rw [Bool.or_eq_true, Bool.and_eq_true, Nat.blt_eq, Nat.blt_eq, beq_iff_eq]

theorem pairLtB_trans {a b c : Nat × Nat} (h1 : pairLtB a b = true)
    (h2 : pairLtB b c = true) : pairLtB a c = true := by
  rw [pairLtB_iff] at h1 h2 ⊢
  omega

theorem pairLt_wf : WellFounded (fun a b : Nat × Nat => pairLtB a b = true) := by
  have hsub : Subrelation (fun a b : Nat × Nat => pairLtB a b = true)
      (Prod.Lex Nat.lt Nat.lt) := by
    intro a b hab
    obtain ⟨a1, a2⟩ := a
    obtain ⟨b1, b2⟩ := b
    rcases (pairLtB_iff (a1, a2) (b1, b2)).mp hab with h1 | ⟨h1, h2⟩
    · exact Prod.Lex.left _ _ h1
    · have h1b : a1 = b1 := h1
      have h2b : a2 < b2 := h2
      subst h1b
      exact Prod.Lex.right _ h2b
  exact Subrelation.wf hsub (WellFounded.prod_lex Nat.lt_wfRel.wf Nat.lt_wfRel.wf)

/-- Strict order on optional best costs: a missing `visited` value is the
defaultdict `(inf, inf)`, i.e. the top element, and present values compare
by the lexicographic `pairLtB`. -/
def ocLt : Option (Nat × Nat) → Option (Nat × Nat) → Prop
  | some c, some c2 => pairLtB c c2 = true
  | some _, none => True
  | none, _ => False

def ocLe (x y : Option (Nat × Nat)) : Prop := x = y ∨ ocLt x y

theorem ocLe_refl (x : Option (Nat × Nat)) : ocLe x x := Or.inl rfl

theorem ocLt_irrefl : ∀ x : Option (Nat × Nat), ¬ ocLt x x
  | none, h => False.elim h
  | some c, h => by
    have h2 : pairLtB c c = true := h
    rw [pairLtB_irrefl] at h2
    exact Bool.false_ne_true h2

theorem ocLt_trans : ∀ (x y z : Option (Nat × Nat)), ocLt x y → ocLt y z → ocLt x z
  | some _, some _, some _, h1, h2 => pairLtB_trans h1 h2
  | some _, some _, none, _, _ => True.intro
  | some _, none, _, _, h2 => False.elim h2
  | none, _, _, h1, _ => False.elim h1

theorem ocLe_trans {x y z : Option (Nat × Nat)} (h1 : ocLe x y) (h2 : ocLe y z) :
    ocLe x z := by
  rcases h1 with rfl | h1
  · exact h2
  · rcases h2 with rfl | h2
    · exact Or.inr h1
    · exact Or.inr (ocLt_trans _ _ _ h1 h2)

theorem ocLt_of_ocLe_ocLt {x y z : Option (Nat × Nat)} (h1 : ocLe x y)
    (h2 : ocLt y z) : ocLt x z := by
  rcases h1 with rfl | h1
  · exact h2
  · exact ocLt_trans _ _ _ h1 h2

theorem acc_ocLt_some (c : Nat × Nat) : Acc ocLt (some c) := by
  refine @WellFounded.induction (Nat × Nat) (fun a b => pairLtB a b = true)
    pairLt_wf (fun x => Acc ocLt (some x)) c ?_
  intro x ih
  constructor
  intro y hy
  cases y with
  | none => exact False.elim hy
  | some c2 => exact ih c2 hy

theorem ocLt_wf : WellFounded ocLt := by
  constructor
  intro x
  cases x with
  | some c => exact acc_ocLt_some c
  | none =>
    constructor
    intro y hy
    cases y with
    | some c => exact acc_ocLt_some c
    | none => exact False.elim hy

/-- Lexicographic order on equal-length vectors of optional costs: the
well-founded part of the termination measure. -/
def vecLt : List (Option (Nat × Nat)) → List (Option (Nat × Nat)) → Prop
  | x :: xs, y :: ys => (ocLt x y ∧ xs.length = ys.length) ∨ (x = y ∧ vecLt xs ys)
  | _, _ => False

theorem vecLt_cons (x y : Option (Nat × Nat)) (xs ys : List (Option (Nat × Nat))) :
    vecLt (x :: xs) (y :: ys) =
      ((ocLt x y ∧ xs.length = ys.length) ∨ (x = y ∧ vecLt xs ys)) := rfl

theorem vecLt_length : ∀ {xs ys : List (Option (Nat × Nat))},
    vecLt xs ys → xs.length = ys.length := by
  intro xs
  induction xs with
  | nil =>
    intro ys h
    cases ys with
    | nil => exact False.elim h
    | cons y ys2 => exact False.elim h
  | cons x xs2 ih =>
    intro ys h
    cases ys with
    | nil => exact False.elim h
    | cons y ys2 =>
      rcases h with ⟨_, hl⟩ | ⟨_, hv⟩
      · simpa using hl
      · simpa using ih hv

theorem acc_vecLt_cons {n : Nat}
    (hall : ∀ xs : List (Option (Nat × Nat)), xs.length = n → Acc vecLt xs) :
    ∀ (y : Option (Nat × Nat)), Acc ocLt y →
      ∀ (ys : List (Option (Nat × Nat))), Acc vecLt ys → ys.length = n →
        Acc vecLt (y :: ys) := by
  intro y hy
  induction hy with
  | intro y hyacc ihy =>
    intro ys hys
    induction hys with
    | intro ys hysacc ihys =>
      intro hlen
      constructor
      intro xs hxs
      cases xs with
      | nil => exact False.elim hxs
      | cons x xs2 =>
        rcases hxs with ⟨hlt, hl⟩ | ⟨heq, hv⟩
        · have hl2 : xs2.length = n := by rw [hl, hlen]
          exact ihy x hlt xs2 (hall xs2 hl2) hl2
        · subst heq
          exact ihys xs2 hv (by rw [vecLt_length hv, hlen])

theorem acc_vecLt_of_length : ∀ (n : Nat) (ys : List (Option (Nat × Nat))),
    ys.length = n → Acc vecLt ys := by
  intro n
  induction n with
  | zero =>
    intro ys hlen
    rw [List.length_eq_zero] at hlen
    subst hlen
    constructor
    intro xs hxs
    cases xs with
    | nil => exact False.elim hxs
    | cons x xs2 => exact False.elim hxs
  | succ n ih =>
    intro ys hlen
    cases ys with
    | nil => exact absurd hlen (by simp)
    | cons y ys2 =>
      have hl2 : ys2.length = n := by simpa using hlen
      exact acc_vecLt_cons ih y (ocLt_wf.apply y) ys2 (ih ys2 hl2) hl2

theorem vecLt_map (v2 v : Visited) :
    ∀ (K : List (Station × Line)),
      (∀ k, ocLe (v2 k) (v k)) →
      (∃ k ∈ K, ocLt (v2 k) (v k)) →
      vecLt (K.map (fun k => v2 k)) (K.map (fun k => v k)) := by
  intro K
  induction K with
  | nil =>
    intro _ hex
    rcases hex with ⟨k, hk, _⟩
    exact absurd hk (List.not_mem_nil k)
  | cons k0 K ih =>
    intro hle hex
    simp only [List.map_cons]
    rw [vecLt_cons]
    rcases hle k0 with heq | hlt0
    · rcases hex with ⟨k, hk, hklt⟩
      rcases List.mem_cons.mp hk with rfl | hk2
      · rw [heq] at hklt
        exact absurd hklt (ocLt_irrefl _)
      · exact Or.inr ⟨heq, ih hle ⟨k, hk2, hklt⟩⟩
    · refine Or.inl ⟨hlt0, ?_⟩
      simp

/-- A successful relaxation either leaves the frontier and `visited`
untouched, or lowers `visited` pointwise with a strict drop at the pushed
key `(neighbour, edge line)`, whose line is one of the edge's labels. -/
theorem relax_decrease {e : Entry} {acc acc2 : List Entry × Visited}
    {nb : Station × Labels} (h : relax e acc nb = some acc2) :
    acc2 = acc ∨
      ((∀ k, ocLe (acc2.2 k) (acc.2 k)) ∧
        ∃ el ∈ nb.2, ocLt (acc2.2 (nb.1, el)) (acc.2 (nb.1, el))) := by
  simp only [relax] at h
  split at h
  · exact absurd h (by simp)
  · next el heq =>
    have helmem : el ∈ nb.2 := by
      by_cases hm : e.lin ∈ nb.2
      · rw [if_pos hm] at heq
        injection heq with h2
        rw [← h2]
        exact hm
      · rw [if_neg hm] at heq
        exact pymin_mem heq
    split at h
    · next hbetter =>
      injection h with h2
      subst h2
      have hvs : vset acc.2 (nb.1, el) (relaxCost e el) (nb.1, el)
          = some (relaxCost e el) := by
        unfold vset
        simp
      have hlt : ocLt (vset acc.2 (nb.1, el) (relaxCost e el) (nb.1, el))
          (acc.2 (nb.1, el)) := by
        rw [hvs]
        cases hb : acc.2 (nb.1, el) with
        | none => exact True.intro
        | some best =>
          rw [hb] at hbetter
          exact hbetter
      refine Or.inr ⟨?_, el, helmem, hlt⟩
      intro k
      by_cases hk : k = (nb.1, el)
      · subst hk
        exact Or.inr hlt
      · left
        show vset acc.2 (nb.1, el) (relaxCost e el) k = acc.2 k
        unfold vset
        rw [if_neg hk]
    · next hbetter =>
      injection h with h2
      subst h2
      exact Or.inl rfl

/-- Expanding a popped entry either returns the accumulator unchanged or
lowers `visited` pointwise with a strict drop at some key drawn from the
adjacency being iterated. -/
theorem expand_decrease {e : Entry} {K : List (Station × Line)} :
    ∀ (adj : Adj) (acc pv : List Entry × Visited),
      expand e adj acc = some pv →
      (∀ p ∈ adj, ∀ el ∈ p.2, (p.1, el) ∈ K) →
      (∀ k, ocLe (pv.2 k) (acc.2 k)) ∧
        (pv = acc ∨ ∃ k ∈ K, ocLt (pv.2 k) (acc.2 k)) := by
  intro adj
  induction adj with
  | nil =>
    intro acc pv h hK
    unfold expand at h
    injection h with h2
    subst h2
    exact ⟨fun k => ocLe_refl _, Or.inl rfl⟩
  | cons nb rest ih =>
    intro acc pv h hK
    unfold expand at h
    cases hr : relax e acc nb with
    | none => rw [hr] at h; exact absurd h (by simp)
    | some accm =>
      rw [hr] at h
      obtain ⟨ile, irest⟩ := ih accm pv h (fun p hp => hK p (List.mem_cons_of_mem _ hp))
      rcases relax_decrease hr with heq | ⟨hle, el, helmem, hlt⟩
      · subst heq
        exact ⟨ile, irest⟩
      · refine ⟨fun k => ocLe_trans (ile k) (hle k), Or.inr ?_⟩
        refine ⟨(nb.1, el), hK nb (List.mem_cons_self _ _) el helmem, ?_⟩
        exact ocLt_of_ocLe_ocLt (ile (nb.1, el)) hlt

/-- The key universe hypothesis: every (neighbour, label) pair reachable
through a graph lookup is recorded in the finite list `K`. -/
def KeysOk (K : List (Station × Line)) (g : Graph) : Prop :=
  ∀ s adj, alook g s = some adj → ∀ p ∈ adj, ∀ el ∈ p.2, (p.1, el) ∈ K

theorem alook_append_cases {α : Type} (l1 l2 : List (String × α)) (k : String)
    {r : α} (h : alook (l1 ++ l2) k = some r) :
    alook l1 k = some r ∨ (alook l1 k = none ∧ alook l2 k = some r) := by
  rw [alook_append] at h
  cases hb : alook l1 k with
  | some v =>
    rw [hb] at h
    exact Or.inl h
  | none =>
    rw [hb] at h
    exact Or.inr ⟨rfl, h⟩

theorem keysOk_graphGetD {K : List (Station × Line)} {g : Graph} {s : Station}
    (h : KeysOk K g) : KeysOk K (graphGetD g s).2 := by
  unfold graphGetD
  cases ha : alook g s with
  | some adj => exact h
  | none =>
    intro s2 adj2 h2 p hp el hel
    rcases alook_append_cases g [(s, [])] s2 h2 with hc | ⟨_, hc⟩
    · exact h s2 adj2 hc p hp el hel
    · by_cases hs : s = s2
      · have hc2 : some ([] : Adj) = some adj2 := by
          rw [← hc]
          simp [alook, hs]
        injection hc2 with hc3
        rw [← hc3] at hp
        exact absurd hp (List.not_mem_nil p)
      · simp [alook, hs] at hc

/-- The finite key universe of a graph: each inner adjacency key paired
with each of that edge's labels. -/
def graphKeys (g : Graph) : List (Station × Line) :=
  g.flatMap (fun p => p.2.flatMap (fun q => q.2.map (fun l => (q.1, l))))

theorem graphKeys_ok (g : Graph) : KeysOk (graphKeys g) g := by
  intro s adj ha p hp el hel
  unfold graphKeys
  simp only [List.mem_flatMap, List.mem_map]
  exact ⟨(s, adj), mem_of_alook ha, p, hp, el, hel, rfl⟩

theorem findLoop_exists_fuel (dest : Station) (K : List (Station × Line)) :
    ∀ (vec : List (Option (Nat × Nat))), Acc vecLt vec →
    ∀ (v : Visited), K.map (fun k => v k) = vec →
    ∀ (n : Nat) (pq : List Entry), pq.length = n →
    ∀ (g : Graph), KeysOk K g →
    ∃ fuel out, findLoop dest fuel pq v g = some out := by
  intro vec hacc
  induction hacc with
  | intro vec hvacc ihvec =>
    intro v hvec n
    induction n with
    | zero =>
      intro pq hlen g hg
      rw [List.length_eq_zero] at hlen
      subst hlen
      exact ⟨1, Out.nopath g, rfl⟩
    | succ n ihn =>
      intro pq hlen g hg
      cases pq with
      | nil => exact ⟨1, Out.nopath g, rfl⟩
      | cons e rest =>
        have hrlen : rest.length = n := by simpa using hlen
        by_cases hstale : staleB v e = true
        · obtain ⟨fuel, out, hout⟩ := ihn rest hrlen g hg
          refine ⟨fuel + 1, out, ?_⟩
          rw [findLoop, if_pos hstale]
          exact hout
        · by_cases hdest : e.stn = dest
          · refine ⟨1, Out.found e g, ?_⟩
            rw [findLoop, if_neg hstale, if_pos hdest]
          · have hg2 : KeysOk K (graphGetD g e.stn).2 := keysOk_graphGetD hg
            have hadjK : ∀ p ∈ (graphGetD g e.stn).1, ∀ el ∈ p.2, (p.1, el) ∈ K := by
              unfold graphGetD
              cases ha : alook g e.stn with
              | some adj => exact hg e.stn adj ha
              | none =>
                intro p hp
                exact absurd hp (List.not_mem_nil p)
            cases hexp : expand e (graphGetD g e.stn).1 (rest, v) with
            | none =>
              refine ⟨1, Out.crash (graphGetD g e.stn).2, ?_⟩
              rw [findLoop, if_neg hstale, if_neg hdest, hexp]
            | some pv =>
              obtain ⟨hle, hrest2⟩ := expand_decrease _ _ _ hexp hadjK
              rcases hrest2 with heq | ⟨k, hk, hklt⟩
              · subst heq
                obtain ⟨fuel, out, hout⟩ := ihn rest hrlen (graphGetD g e.stn).2 hg2
                refine ⟨fuel + 1, out, ?_⟩
                rw [findLoop, if_neg hstale, if_neg hdest, hexp]
                exact hout
              · have hvlt : vecLt (K.map (fun k2 => pv.2 k2)) vec := by
                  rw [← hvec]
                  exact vecLt_map pv.2 v K hle ⟨k, hk, hklt⟩
                obtain ⟨fuel, out, hout⟩ :=
                  ihvec _ hvlt pv.2 rfl pv.1.length pv.1 rfl (graphGetD g e.stn).2 hg2
                refine ⟨fuel + 1, out, ?_⟩
                rw [findLoop, if_neg hstale, if_neg hdest, hexp]
                exact hout

/-- The `while` loop of `find_min_switch_path` always terminates: for every
frontier, visited map and graph some fuel makes `findLoop` return a
result. -/
theorem findLoop_terminates (dest : Station) (pq : List Entry) (v : Visited)
    (g : Graph) : ∃ fuel out, findLoop dest fuel pq v g = some out :=
  findLoop_exists_fuel dest (graphKeys g) ((graphKeys g).map (fun k => v k))
    (acc_vecLt_of_length (((graphKeys g).map (fun k => v k)).length)
      ((graphKeys g).map (fun k => v k)) rfl)
    v rfl pq.length pq rfl g (graphKeys_ok g)

/-- `find_min_switch_path` terminates on every input: some fuel suffices
for the embedded run to complete, so the fuel-completion hypotheses of the
other theorems are satisfiable for every graph, index and query. -/
theorem find_min_switch_path_terminates (g : Graph) (sl : SL) (src dest : Station) :
    ∃ fuel res, find_min_switch_path g sl src dest fuel = some res := by
  unfold find_min_switch_path
  by_cases hguard : ((alook sl src).isNone || (alook sl dest).isNone) = true
  · refine ⟨0, PyResult.ret none g sl, ?_⟩
    rw [if_pos hguard]
  · obtain ⟨fuel, out, hout⟩ := findLoop_terminates dest
      (seedPQ src (slGetD sl src).1).1 (seedPQ src (slGetD sl src).1).2 g
    refine ⟨fuel, ?_⟩
    rw [if_neg hguard, hout]
    cases out with
    | found e g2 => exact ⟨_, rfl⟩
    | nopath g2 => exact ⟨_, rfl⟩
    | crash g2 => exact ⟨_, rfl⟩

end Metro
